import Mathlib

/-!
Verification development for the web-vi dataflow engine
(src/web-vi/src/engine: schema, graph converter, runner, execution bridge).

The TypeScript source is shallowly embedded:
* JavaScript runtime values are the inductive `Value` (integer numbers,
  NaN, booleans, strings, and `undefined`); JS records and `Map`s are
  association lists whose `set` updates in place and otherwise appends,
  matching JS insertion-order semantics.
* Fallible code (`throw`) returns `Except String`.
* The two places where the source could diverge on pathological inputs
  are given explicit fuel: Kahn's worklist (each id is enqueued at most
  once, so `nodes + edges + 1` steps always suffice) and the recursion
  of `buildChildGraph` along the parent-container relation (`none`
  models divergence on a cyclic parent chain; depth is bounded by the
  number of diagram nodes whenever the source terminates).
* The runner's recursion into nested WhileLoop child graphs is bounded
  by explicit fuel, one unit per nesting level; `executeWhileLoop`
  instantiates the fuel with `nodeFuel node`, which is always sufficient
  (`execWL_fuel_irrel`).
-/

/-- A JavaScript runtime value as used by the engine: numbers are modelled
as integers (every value the engine manipulates in the verified claims is
integral), with NaN kept as a separate point. -/
inductive Value : Type where
  | num : Int → Value
  | nan : Value
  | bool : Bool → Value
  | str : String → Value
  | undef : Value
deriving DecidableEq, Repr

/-- JS ToString on the values we model. -/
def jsToString : Value → String
  | .num n => toString n
  | .nan => "NaN"
  | .bool b => if b then "true" else "false"
  | .str s => s
  | .undef => "undefined"

/-- JS ToNumber on the values we model; the result is `.num` or `.nan`. -/
def jsToNumber : Value → Value
  | .num n => .num n
  | .nan => .nan
  | .bool b => .num (if b then 1 else 0)
  | .undef => .nan
  | .str s =>
    let t := s.trim
    if t = "" then .num 0
    else match t.toInt? with
      | some n => .num n
      | none => .nan

/-- JS `+` (numeric addition, string concatenation, NaN propagation). -/
def jsAdd (a b : Value) : Value :=
  match a, b with
  | .str s, v => .str (s ++ jsToString v)
  | v, .str s => .str (jsToString v ++ s)
  | _, _ =>
    match jsToNumber a, jsToNumber b with
    | .num x, .num y => .num (x + y)
    | _, _ => .nan

/-- JS `-` (always numeric, NaN propagation). -/
def jsSub (a b : Value) : Value :=
  match jsToNumber a, jsToNumber b with
  | .num x, .num y => .num (x - y)
  | _, _ => .nan

/-- JS `<`: lexicographic on two strings, otherwise numeric with any NaN
comparison yielding `false`. -/
def jsLt (a b : Value) : Bool :=
  match a, b with
  | .str s, .str t => decide (s < t)
  | _, _ =>
    match jsToNumber a, jsToNumber b with
    | .num x, .num y => decide (x < y)
    | _, _ => false

/-- JS truthiness. -/
def jsTruthy : Value → Bool
  | .num n => decide (n ≠ 0)
  | .nan => false
  | .bool b => b
  | .str s => decide (s ≠ "")
  | .undef => false

/-- JS nullish coalescing `v ?? d` (`null` is folded into `undef`). -/
def jsNullish (v d : Value) : Value :=
  match v with
  | .undef => d
  | _ => v

/-- Lookup in an association list (first matching key), modelling JS
`Map.get` / property access returning `undefined` when absent. -/
def mget? {κ α : Type} [DecidableEq κ] : List (κ × α) → κ → Option α
  | [], _ => none
  | (k', v) :: rest, k => if k' = k then some v else mget? rest k

/-- Update in an association list: replaces the first matching key in
place, otherwise appends — exactly JS `Map.set` / property assignment
with respect to key order. -/
def mset {κ α : Type} [DecidableEq κ] : List (κ × α) → κ → α → List (κ × α)
  | [], k, v => [(k, v)]
  | (k', v') :: rest, k, v =>
    if k' = k then (k, v) :: rest else (k', v') :: mset rest k v

instance {ε α : Type} [DecidableEq ε] [DecidableEq α] : DecidableEq (Except ε α) :=
  fun x y =>
    match x, y with
    | .error a, .error b =>
      if h : a = b then isTrue (by subst h; rfl)
      else isFalse (by intro hh; cases hh; exact h rfl)
    | .ok a, .ok b =>
      if h : a = b then isTrue (by subst h; rfl)
      else isFalse (by intro hh; cases hh; exact h rfl)
    | .error _, .ok _ => isFalse (by intro hh; cases hh)
    | .ok _, .error _ => isFalse (by intro hh; cases hh)

/-- Node kinds of the engine schema (src/web-vi/src/engine/schema.ts). -/
inductive NodeType : Type where
  | Constant | Indicator | Add | Subtract | Increment | LessThan
  | WhileLoop | ShiftRegisterRead | ShiftRegisterWrite | LoopCondition
deriving DecidableEq, Repr

/-- Advisory terminal kind tag ("number" | "boolean" | "string"); never
consulted at evaluation time. -/
abbrev Terminal : Type := String

/-- A connection endpoint (node id, terminal name). -/
structure TerminalRef : Type where
  nodeId : String
  terminal : String
deriving DecidableEq, Repr

/-- A wire from an output terminal to an input terminal. -/
structure Edge : Type where
  from' : TerminalRef
  to' : TerminalRef
deriving DecidableEq, Repr

mutual
/-- A node of the engine graph: id, kind, configuration payload, declared
input/output terminal maps, and an optional recursive child graph
(present on WhileLoop nodes). -/
inductive Node : Type where
  | mk : String → NodeType → List (String × Value) →
      List (String × Terminal) → List (String × Terminal) → Option Graph → Node

/-- A graph: id, nodes, edges. -/
inductive Graph : Type where
  | mk : String → List Node → List Edge → Graph
end

def Node.id : Node → String
  | .mk i _ _ _ _ _ => i

def Node.ntype : Node → NodeType
  | .mk _ t _ _ _ _ => t

def Node.data : Node → List (String × Value)
  | .mk _ _ d _ _ _ => d

def Node.inputs : Node → List (String × Terminal)
  | .mk _ _ _ ins _ _ => ins

def Node.outputs : Node → List (String × Terminal)
  | .mk _ _ _ _ outs _ => outs

def Node.childGraph : Node → Option Graph
  | .mk _ _ _ _ _ cg => cg

def Graph.gid : Graph → String
  | .mk i _ _ => i

def Graph.nodes : Graph → List Node
  | .mk _ ns _ => ns

def Graph.edges : Graph → List Edge
  | .mk _ _ es => es

mutual
/-- Interpreter fuel of a node: strictly dominates the fuel of its child
graph, so one unit of fuel per nesting level always suffices. -/
def nodeFuel : Node → Nat
  | .mk _ _ _ _ _ none => 1
  | .mk _ _ _ _ _ (some g) => graphFuel g + 1

/-- Interpreter fuel of a graph: strictly dominates the fuel of each of
its nodes. -/
def graphFuel : Graph → Nat
  | .mk _ ns _ => nodesFuel ns + 1

/-- Interpreter fuel of a node list. -/
def nodesFuel : List Node → Nat
  | [] => 0
  | n :: rest => nodeFuel n + nodesFuel rest + 1
end

/-- Values flowing through the graph: map of terminal names to values
(TS `TerminalValues = Record<string, unknown>`). -/
abbrev TerminalValues : Type := List (String × Value)

/-- Output state for each node (TS `NodeOutputs = Map<string, TerminalValues>`). -/
abbrev NodeOutputs : Type := List (String × TerminalValues)

/-- Shift-register state: a JS `Map<unknown, unknown>` keyed by the raw
`data.register` value (SameValueZero key equality coincides with
structural equality on `Value`, including NaN). -/
abbrev RegMap : Type := List (Value × Value)

/-- Read a property of a JS record, `undefined` when absent. -/
def jsGet (m : TerminalValues) (k : String) : Value :=
  (mget? m k).getD (.undef)

/-- One step of the neighbour loop of Kahn's algorithm: decrement each
neighbour's in-degree (`(inDegree.get(neighbor) ?? 1) - 1`) and enqueue it
when the new degree is exactly zero. -/
def kahnNeighbors : List (String × Int) → List String → List String →
    List (String × Int) × List String
  | indeg, queue, [] => (indeg, queue)
  | indeg, queue, nb :: rest =>
    let newDegree := ((mget? indeg nb).getD 1) - 1
    let indeg' := mset indeg nb newDegree
    let queue' := if newDegree = 0 then queue ++ [nb] else queue
    kahnNeighbors indeg' queue' rest

/-- The worklist loop of Kahn's algorithm, with explicit fuel. In the
source the loop runs until the queue is empty; every id is enqueued at
most once (degrees strictly decrease, so a degree reaches exactly zero at
most once), hence `nodes + edges + 1` fuel — the caller's choice — always
exhausts the queue first and the fuel case is never the result. -/
def kahnLoop (adjacency : List (String × List String)) :
    Nat → List (String × Int) → List String → List String → List String
  | 0, _, _, sorted => sorted
  | _ + 1, _, [], sorted => sorted
  | fuel + 1, indeg, nodeId :: rest, sorted =>
    let sorted' := sorted ++ [nodeId]
    let st := kahnNeighbors indeg rest ((mget? adjacency nodeId).getD [])
    kahnLoop adjacency fuel st.1 st.2 sorted'

/-- Topologically sort nodes based on edges (Kahn's algorithm), returning
node ids in execution order — runner `topologicalSort`. -/
def topologicalSort (graph : Graph) : List String :=
  let st0 := graph.nodes.foldl
    (fun (p : List (String × Int) × List (String × List String)) node =>
      (mset p.1 node.id 0, mset p.2 node.id []))
    ([], [])
  let st := graph.edges.foldl
    (fun (p : List (String × Int) × List (String × List String)) edge =>
      (mset p.1 edge.to'.nodeId (((mget? p.1 edge.to'.nodeId).getD 0) + 1),
       mset p.2 edge.from'.nodeId
         (((mget? p.2 edge.from'.nodeId).getD []) ++ [edge.to'.nodeId])))
    st0
  let queue := st.1.foldl
    (fun q kv => if kv.2 = 0 then q ++ [kv.1] else q) []
  kahnLoop st.2 (graph.nodes.length + graph.edges.length + 1) st.1 queue []

/-- The node map `new Map(graph.nodes.map((n) => [n.id, n]))`; with the JS
`Map` constructor a later entry for the same id overwrites an earlier one. -/
def buildNodeMap (nodes : List Node) : List (String × Node) :=
  nodes.foldl (fun m n => mset m n.id n) []

/-- Resolve input values for a node by following edges — runner
`resolveInputs`. A source terminal that is itself absent is assigned as an
explicit `undefined` property, exactly as in JS. -/
def resolveInputs (node : Node) (graph : Graph) (nodeOutputs : NodeOutputs) :
    TerminalValues :=
  graph.edges.foldl
    (fun inputs edge =>
      if edge.to'.nodeId = node.id then
        match mget? nodeOutputs edge.from'.nodeId with
        | some sourceOutputs =>
          mset inputs edge.to'.terminal (jsGet sourceOutputs edge.from'.terminal)
        | none => inputs
      else inputs)
    []

/-- Execute a single primitive (non-structure) node — runner `executeNode`. -/
def executeNode (node : Node) (inputs : TerminalValues) : TerminalValues :=
  match node.ntype with
  | .Constant => [("value", jsGet node.data "value")]
  | .Indicator => inputs
  | .Add => [("result", jsAdd (jsGet inputs "a") (jsGet inputs "b"))]
  | .Subtract => [("result", jsSub (jsGet inputs "a") (jsGet inputs "b"))]
  | .Increment => [("result", jsAdd (jsGet inputs "value") (jsGet node.data "amount"))]
  | .LessThan => [("result", .bool (jsLt (jsGet inputs "a") (jsGet inputs "b")))]
  | _ => []

/-- JS `Array.indexOf`: index of the first occurrence, `none` when absent
(the source's `-1`). -/
def jsIndexOf : List String → String → Option Nat
  | [], _ => none
  | x :: rest, y =>
    if x = y then some 0
    else match jsIndexOf rest y with
      | some i => some (i + 1)
      | none => none

/-- Find which shift register an output terminal reads from — runner
`findRegisterForOutput`. -/
def findRegisterForOutput (node : Node) (outputName : String) : String :=
  let inputNames := node.inputs.map Prod.fst
  let outputNames := node.outputs.map Prod.fst
  if inputNames.contains outputName then outputName
  else if inputNames.length = 1 ∧ outputNames.length = 1 then
    inputNames.headD outputName
  else
    match jsIndexOf outputNames outputName with
    | some idx =>
      if idx < inputNames.length then inputNames.getD idx outputName
      else outputName
    | none => outputName

/-- Result of one child-graph iteration (runner `IterationResult`). The
loop-condition value is kept as a raw `Value` because the source reads it
with `outputs.continue as boolean` and later tests its truthiness. -/
structure IterationResult : Type where
  shouldContinue : Value
  registerWrites : List (Value × Value)
deriving DecidableEq, Repr

/-- The type of the recursive WhileLoop evaluator threaded through the
runner's helper loops. -/
abbrev ExecFn : Type := Node → TerminalValues → Except String TerminalValues

/-- Seed the register mapping from the WhileLoop's resolved inputs
(`for (const [name, value] of Object.entries(inputs)) shiftRegisters.set(name, value)`). -/
def initShiftRegisters (inputs : TerminalValues) : RegMap :=
  inputs.foldl (fun m kv => mset m (Value.str kv.1) kv.2) []

/-- Default to 0 every register named by a ShiftRegisterRead of the child
graph that was not externally seeded. -/
def seedChildRegisters (childGraph : Graph) (regs : RegMap) : RegMap :=
  childGraph.nodes.foldl
    (fun m childNode =>
      if childNode.ntype = .ShiftRegisterRead then
        let register := jsGet childNode.data "register"
        if (mget? m register).isSome then m else mset m register (.num 0)
      else m)
    regs

/-- Fuel for the `while (iterations < maxIterations)` loop: with
`iterations` counting 0, 1, 2, … the JS guard is monotone, and it holds at
step `i` exactly when `i < (ToNumber maxIterations).toNat`, so this many
steps reproduce the loop exactly (0 for a NaN-like cap, as in JS). -/
def iterFuel (maxIterations : Value) : Nat :=
  match jsToNumber maxIterations with
  | .num m => m.toNat
  | _ => 0

/-- Commit collected register writes
(`iterResult.registerWrites.forEach((value, register) => shiftRegisters.set(register, value))`). -/
def commitWrites (writes : List (Value × Value)) (regs : RegMap) : RegMap :=
  writes.foldl (fun m kv => mset m kv.1 kv.2) regs

/-- Populate the WhileLoop's declared outputs from the final register
mapping through `findRegisterForOutput`. -/
def loopOutputs (node : Node) (regs : RegMap) : TerminalValues :=
  node.outputs.foldl
    (fun outputs kv =>
      mset outputs kv.1
        ((mget? regs (Value.str (findRegisterForOutput node kv.1))).getD .undef))
    []

/-- The node-execution loop of `executeChildGraphIteration`, parameterized
by the recursive WhileLoop evaluator `exec` used for nested loops. -/
def execNodesWith (exec : ExecFn) (graph : Graph) (shiftRegisters : RegMap) :
    List String → NodeOutputs → Except String NodeOutputs
  | [], acc => .ok acc
  | nodeId :: rest, acc =>
    match mget? (buildNodeMap graph.nodes) nodeId with
    | none => execNodesWith exec graph shiftRegisters rest acc
    | some node =>
      match node.ntype with
      | .ShiftRegisterRead =>
        let register := jsGet node.data "register"
        execNodesWith exec graph shiftRegisters rest
          (mset acc node.id [("value", (mget? shiftRegisters register).getD .undef)])
      | .ShiftRegisterWrite =>
        execNodesWith exec graph shiftRegisters rest
          (mset acc node.id (resolveInputs node graph acc))
      | .LoopCondition =>
        execNodesWith exec graph shiftRegisters rest
          (mset acc node.id (resolveInputs node graph acc))
      | .WhileLoop =>
        match exec node (resolveInputs node graph acc) with
        | .error e => .error e
        | .ok outputs =>
          execNodesWith exec graph shiftRegisters rest (mset acc node.id outputs)
      | _ =>
        execNodesWith exec graph shiftRegisters rest
          (mset acc node.id (executeNode node (resolveInputs node graph acc)))

/-- Collect shift-register writes after a pass: scan `graph.nodes` in
order, last write to a register wins. -/
def collectRegisterWrites (graph : Graph) (nodeOutputs : NodeOutputs) :
    List (Value × Value) :=
  graph.nodes.foldl
    (fun registerWrites node =>
      if node.ntype = .ShiftRegisterWrite then
        match mget? nodeOutputs node.id with
        | some outputs =>
          mset registerWrites (jsGet node.data "register") (jsGet outputs "value")
        | none => registerWrites
      else registerWrites)
    []

/-- Determine the loop condition after a pass: default `true`, overridden
by each LoopCondition node (in `graph.nodes` order) that produced outputs. -/
def collectShouldContinue (graph : Graph) (nodeOutputs : NodeOutputs) : Value :=
  graph.nodes.foldl
    (fun shouldContinue node =>
      if node.ntype = .LoopCondition then
        match mget? nodeOutputs node.id with
        | some outputs => jsGet outputs "continue"
        | none => shouldContinue
      else shouldContinue)
    (.bool true)

/-- One iteration of a child graph inside a loop
(runner `executeChildGraphIteration`), parameterized by `exec`. -/
def execIterWith (exec : ExecFn) (graph : Graph) (shiftRegisters : RegMap) :
    Except String IterationResult :=
  match execNodesWith exec graph shiftRegisters (topologicalSort graph) [] with
  | .error e => .error e
  | .ok nodeOutputs =>
    .ok ⟨collectShouldContinue graph nodeOutputs,
      collectRegisterWrites graph nodeOutputs⟩

/-- The `while (iterations < maxIterations)` loop of `executeWhileLoop`,
parameterized by `exec`. The guard is tested exactly as in the source;
the fuel only mirrors it (see `iterFuel`). -/
def loopGoWith (exec : ExecFn) (graph : Graph) (maxIterations : Value) :
    Nat → Nat → RegMap → Except String RegMap
  | 0, _, regs => .ok regs
  | fuel + 1, iterations, regs =>
    if jsLt (.num iterations) maxIterations then
      match execIterWith exec graph regs with
      | .error e => .error e
      | .ok iterResult =>
        let regs' := commitWrites iterResult.registerWrites regs
        if jsTruthy iterResult.shouldContinue then
          loopGoWith exec graph maxIterations fuel (iterations + 1) regs'
        else .ok regs'
    else .ok regs

/-- Execute a While Loop node with its child graph (runner
`executeWhileLoop`), by structural recursion on `fuel`; one unit of fuel
is spent per nesting level, so `nodeFuel node` is always enough (the
`fuel = 0` branch is unreachable from `executeWhileLoop`, see
`execWL_fuel_irrel` and the success lemmas). -/
def execWL : Nat → Node → TerminalValues → Except String TerminalValues
  | 0, _, _ => .error "insufficient interpreter fuel"
  | fuel + 1, node, inputs =>
    match node.childGraph with
    | none => .error ("WhileLoop node \"" ++ node.id ++ "\" has no child graph")
    | some childGraph =>
      let maxIterations := jsNullish (jsGet node.data "maxIterations") (.num 1000)
      let regs :=
        seedChildRegisters childGraph (initShiftRegisters inputs)
      match loopGoWith (execWL fuel) childGraph maxIterations
          (iterFuel maxIterations) 0 regs with
      | .error e => .error e
      | .ok finalRegs => .ok (loopOutputs node finalRegs)

/-- Runner `executeWhileLoop`: the fuel is instantiated with
`nodeFuel node`, which strictly dominates the nesting depth of the child
graphs. -/
def executeWhileLoop (node : Node) (inputs : TerminalValues) :
    Except String TerminalValues :=
  execWL (nodeFuel node) node inputs

/-- Runner `executeChildGraphIteration`. -/
def executeChildGraphIteration (graph : Graph) (shiftRegisters : RegMap) :
    Except String IterationResult :=
  execIterWith executeWhileLoop graph shiftRegisters

/-- Result of executing a graph: map of Indicator node ids to their
terminal values (schema `ExecutionResult`). -/
structure ExecutionResult : Type where
  outputs : NodeOutputs
deriving DecidableEq, Repr

/-- The node-execution loop of `executeGraph`, parameterized by the
WhileLoop evaluator. -/
def execTopLevelWith (exec : ExecFn) (graph : Graph) :
    List String → NodeOutputs → Except String NodeOutputs
  | [], acc => .ok acc
  | nodeId :: rest, acc =>
    match mget? (buildNodeMap graph.nodes) nodeId with
    | none => execTopLevelWith exec graph rest acc
    | some node =>
      let inputs := resolveInputs node graph acc
      match
        (if node.ntype = .WhileLoop then exec node inputs
         else .ok (executeNode node inputs)) with
      | .error e => .error e
      | .ok outputs => execTopLevelWith exec graph rest (mset acc node.id outputs)

/-- Collect Indicator outputs after the top-level pass. -/
def collectIndicatorOutputs (graph : Graph) (nodeOutputs : NodeOutputs) :
    NodeOutputs :=
  graph.nodes.foldl
    (fun result node =>
      if node.ntype = .Indicator then
        match mget? nodeOutputs node.id with
        | some values => mset result node.id values
        | none => result
      else result)
    []

/-- Execute a complete graph and return results — runner `executeGraph`,
the main entry point for the headless engine. -/
def executeGraph (graph : Graph) : Except String ExecutionResult :=
  match execTopLevelWith executeWhileLoop graph (topologicalSort graph) [] with
  | .error e => .error e
  | .ok nodeOutputs => .ok ⟨collectIndicatorOutputs graph nodeOutputs⟩

/-- A React Flow diagram node as consumed by the converter: id, type tag
(`rfNode.type` may be absent), optional parent container, free-form data
bag (an absent `data` object behaves like an empty one under `?.`). -/
structure RFNode : Type where
  id : String
  type : Option String
  parentNode : Option String
  data : List (String × Value)
deriving DecidableEq, Repr

/-- A React Flow wire: source/target node ids with optional handles. -/
structure RFEdge : Type where
  source : String
  sourceHandle : Option String
  target : String
  targetHandle : Option String
deriving DecidableEq, Repr

/-- JS truthiness of a `string | undefined` (empty string is falsy). -/
def optStrTruthy : Option String → Bool
  | none => false
  | some s => decide (s ≠ "")

/-- `handle?.endsWith(suffix)` with `undefined` falsy. -/
def optEndsWith (h : Option String) (suffix : String) : Bool :=
  match h with
  | none => false
  | some s => s.endsWith suffix

/-- Map React Flow node type names to engine node types
(converter `RF_TO_ENGINE_TYPE`). -/
def RF_TO_ENGINE_TYPE (s : String) : Option NodeType :=
  if s = "NumericControl" then some .Constant
  else if s = "NumericIndicator" then some .Indicator
  else if s = "Add" then some .Add
  else if s = "Subtract" then some .Subtract
  else if s = "WhileLoop" then some .WhileLoop
  else none

/-- Convert a non-WhileLoop React Flow node to an engine Node
(converter `convertSimpleNode`). -/
def convertSimpleNode (rfNode : RFNode) : Node :=
  let engineType := (RF_TO_ENGINE_TYPE (rfNode.type.getD "")).getD .Constant
  match engineType with
  | .Constant =>
    .mk rfNode.id .Constant [("value", jsNullish (jsGet rfNode.data "value") (.num 0))]
      [] [("value", "number")] none
  | .Indicator =>
    .mk rfNode.id .Indicator [] [("value", "number")] [] none
  | .Add =>
    .mk rfNode.id .Add [] [("a", "number"), ("b", "number")] [("result", "number")] none
  | .Subtract =>
    .mk rfNode.id .Subtract [] [("a", "number"), ("b", "number")] [("result", "number")] none
  | _ =>
    .mk rfNode.id engineType rfNode.data [] [] none

/-- The six synthesized iteration-control nodes of a loop's child graph. -/
def counterNodes (loopId : String) (maxIterations : Value) : List Node :=
  [ .mk (loopId ++ "__iter-read") .ShiftRegisterRead [("register", .str "iter")]
      [] [("value", "number")] none,
    .mk (loopId ++ "__iter-inc") .Increment [("amount", .num 1)]
      [("value", "number")] [("result", "number")] none,
    .mk (loopId ++ "__iter-write") .ShiftRegisterWrite [("register", .str "iter")]
      [("value", "number")] [] none,
    .mk (loopId ++ "__limit") .Constant [("value", maxIterations)]
      [] [("value", "number")] none,
    .mk (loopId ++ "__cmp") .LessThan []
      [("a", "number"), ("b", "number")] [("result", "boolean")] none,
    .mk (loopId ++ "__condition") .LoopCondition []
      [("continue", "boolean")] [] none ]

/-- The five synthesized wires of the iteration-control subcircuit. -/
def counterEdges (loopId : String) : List Edge :=
  [ ⟨⟨loopId ++ "__iter-read", "value"⟩, ⟨loopId ++ "__iter-inc", "value"⟩⟩,
    ⟨⟨loopId ++ "__iter-inc", "result"⟩, ⟨loopId ++ "__iter-write", "value"⟩⟩,
    ⟨⟨loopId ++ "__iter-inc", "result"⟩, ⟨loopId ++ "__cmp", "a"⟩⟩,
    ⟨⟨loopId ++ "__limit", "value"⟩, ⟨loopId ++ "__cmp", "b"⟩⟩,
    ⟨⟨loopId ++ "__cmp", "result"⟩, ⟨loopId ++ "__condition", "continue"⟩⟩ ]

/-- Convert the direct children of a loop container (step 2 of
`buildChildGraph`): nested containers recurse through `build`,
unrecognized type names are silently dropped. -/
def convertChildrenWith (build : RFNode → Option Graph) : List RFNode → Option (List Node)
  | [] => some []
  | child :: rest =>
    match RF_TO_ENGINE_TYPE (child.type.getD "") with
    | none => convertChildrenWith build rest
    | some .WhileLoop =>
      match build child with
      | none => none
      | some nestedChildGraph =>
        match convertChildrenWith build rest with
        | none => none
        | some others =>
          some (Node.mk child.id .WhileLoop
            [("maxIterations", jsNullish (jsGet child.data "maxIterations") (.num 1000))]
            [("init", "number")] [("result", "number")] (some nestedChildGraph) :: others)
    | some _ =>
      match convertChildrenWith build rest with
      | none => none
      | some others => some (convertSimpleNode child :: others)

/-- Build the engine child graph for a WhileLoop node (converter
`buildChildGraph`). The recursion follows the parent-container relation,
which the source does not guard against cycles in; `fuel` makes the
function total, with `none` modelling the (pathological, otherwise
unreachable) divergence — the top-level caller passes `nodes + 1` fuel,
which dominates any acyclic container-nesting depth. -/
def buildChildGraph : Nat → RFNode → List RFNode → List RFEdge → List RFEdge →
    List (String × List RFEdge) → List (String × List RFNode) →
    List (String × List RFEdge) → List (String × List RFEdge) → Option Graph
  | 0, _, _, _, _, _, _, _, _ => none
  | fuel + 1, loopNode, directChildren, tunnelIn, tunnelOut,
      allInternalEdges, allChildrenByParent, allTunnelInEdges, allTunnelOutEdges =>
    let loopId := loopNode.id
    let maxIterations := jsNullish (jsGet loopNode.data "maxIterations") (.num 1000)
    let srReadId := loopId ++ "__sr-read-init"
    let srRead : Node :=
      .mk srReadId .ShiftRegisterRead [("register", .str "init")]
        [] [("value", "number")] none
    match convertChildrenWith
        (fun child => buildChildGraph fuel child
          ((mget? allChildrenByParent child.id).getD [])
          ((mget? allTunnelInEdges child.id).getD [])
          ((mget? allTunnelOutEdges child.id).getD [])
          allInternalEdges allChildrenByParent allTunnelInEdges allTunnelOutEdges)
        directChildren with
    | none => none
    | some convertedChildren =>
      let tunnelInEdges : List Edge := tunnelIn.map
        (fun e => ⟨⟨srReadId, "value"⟩, ⟨e.target, e.targetHandle.getD "value"⟩⟩)
      let srWriteId := loopId ++ "__sr-write-init"
      let srWrite : Node :=
        .mk srWriteId .ShiftRegisterWrite [("register", .str "init")]
          [("value", "number")] [] none
      let tunnelOutEdges : List Edge := tunnelOut.map
        (fun e => ⟨⟨e.source, e.sourceHandle.getD "value"⟩, ⟨srWriteId, "value"⟩⟩)
      let internalEdges : List Edge := ((mget? allInternalEdges loopId).getD []).map
        (fun e => ⟨⟨e.source, e.sourceHandle.getD "value"⟩,
          ⟨e.target, e.targetHandle.getD "value"⟩⟩)
      some (.mk (loopId ++ "-child")
        ([srRead] ++ convertedChildren ++ [srWrite] ++ counterNodes loopId maxIterations)
        (tunnelInEdges ++ tunnelOutEdges ++ internalEdges ++ counterEdges loopId))

/-- The four-way wire partition state of `convertToEngineGraph`:
top-level wires, then tunnel-in / tunnel-out / internal wires per parent. -/
structure EdgePartition : Type where
  topLevelEdges : List RFEdge
  tunnelInEdges : List (String × List RFEdge)
  tunnelOutEdges : List (String × List RFEdge)
  internalEdges : List (String × List RFEdge)
deriving DecidableEq, Repr

/-- Partition the diagram wires (step 2 of the converter): tunnel-in by
source-handle suffix, tunnel-out by target-handle suffix, else top-level
when both endpoints are top-level, else internal when both endpoints share
a parent, else leniently top-level. -/
def partitionEdges (nodeParentMap : List (String × Option String))
    (rfEdges : List RFEdge) : EdgePartition :=
  rfEdges.foldl
    (fun st edge =>
      let sourceParent : Option String := (mget? nodeParentMap edge.source).getD none
      let targetParent : Option String := (mget? nodeParentMap edge.target).getD none
      if optEndsWith edge.sourceHandle "-tunnel-in" then
        { st with
            tunnelInEdges :=
              mset st.tunnelInEdges edge.source
                (((mget? st.tunnelInEdges edge.source).getD []) ++ [edge]) }
      else if optEndsWith edge.targetHandle "-tunnel-out" then
        { st with
            tunnelOutEdges :=
              mset st.tunnelOutEdges edge.target
                (((mget? st.tunnelOutEdges edge.target).getD []) ++ [edge]) }
      else if ¬ optStrTruthy sourceParent ∧ ¬ optStrTruthy targetParent then
        { st with topLevelEdges := st.topLevelEdges ++ [edge] }
      else if optStrTruthy sourceParent ∧ optStrTruthy targetParent ∧
          sourceParent = targetParent then
        { st with
            internalEdges :=
              mset st.internalEdges (sourceParent.getD "")
                (((mget? st.internalEdges (sourceParent.getD "")).getD []) ++ [edge]) }
      else
        { st with topLevelEdges := st.topLevelEdges ++ [edge] })
    ⟨[], [], [], []⟩

/-- Convert the top-level diagram nodes to engine nodes (the main loop of
`convertToEngineGraph`); `none` propagates `buildChildGraph` divergence. -/
def convertTopNodes (fuel : Nat) (childrenByParent : List (String × List RFNode))
    (part : EdgePartition) : List RFNode → Option (List Node)
  | [] => some []
  | rfNode :: rest =>
    match RF_TO_ENGINE_TYPE (rfNode.type.getD "") with
    | none => convertTopNodes fuel childrenByParent part rest
    | some .WhileLoop =>
      match buildChildGraph fuel rfNode
          ((mget? childrenByParent rfNode.id).getD [])
          ((mget? part.tunnelInEdges rfNode.id).getD [])
          ((mget? part.tunnelOutEdges rfNode.id).getD [])
          part.internalEdges childrenByParent part.tunnelInEdges part.tunnelOutEdges with
      | none => none
      | some childGraph =>
        match convertTopNodes fuel childrenByParent part rest with
        | none => none
        | some others =>
          some (Node.mk rfNode.id .WhileLoop
            [("maxIterations", jsNullish (jsGet rfNode.data "maxIterations") (.num 1000))]
            [("init", "number")] [("result", "number")] (some childGraph) :: others)
    | some _ =>
      match convertTopNodes fuel childrenByParent part rest with
      | none => none
      | some others => some (convertSimpleNode rfNode :: others)

/-- Convert React Flow nodes and edges into the engine's Graph schema
(converter `convertToEngineGraph`). `none` models the divergence of the
source on a cyclic parent-container chain; for every input on which the
source terminates the container-nesting depth is at most the number of
nodes, so `rfNodes.length + 1` fuel is sufficient and the result is
`some`. -/
def convertToEngineGraph (rfNodes : List RFNode) (rfEdges : List RFEdge) :
    Option Graph :=
  let topLevelNodes := rfNodes.filter (fun n => ! optStrTruthy n.parentNode)
  let childrenByParent := rfNodes.foldl
    (fun m node =>
      if optStrTruthy node.parentNode then
        let p := node.parentNode.getD ""
        mset m p (((mget? m p).getD []) ++ [node])
      else m)
    []
  let nodeParentMap := rfNodes.foldl
    (fun m node => mset m node.id node.parentNode) []
  let part := partitionEdges nodeParentMap rfEdges
  match convertTopNodes (rfNodes.length + 1) childrenByParent part topLevelNodes with
  | none => none
  | some engineNodes =>
    let engineEdges : List Edge := part.topLevelEdges.map
      (fun edge =>
        ⟨⟨edge.source, edge.sourceHandle.getD "value"⟩,
         ⟨edge.target, edge.targetHandle.getD "value"⟩⟩)
    some (.mk "root" engineNodes engineEdges)

/-- Narrow collected Indicator outputs to the flat `{nodeId: value}` map
the UI consumes (the loop of bridge `runDiagram`): an entry is included
exactly when its "value" terminal is not `undefined` — the `as number`
cast performs no runtime check. -/
def narrowUpdates (outputs : NodeOutputs) : List (String × Value) :=
  outputs.foldl
    (fun updates kv =>
      if jsGet kv.2 "value" ≠ Value.undef then
        mset updates kv.1 (jsGet kv.2 "value")
      else updates)
    []

/-- Execute the current React Flow diagram through the engine (bridge
`runDiagram`): lower, run, then narrow the Indicator outputs. The outer
`Option` models converter divergence, the inner `Except` a thrown error. -/
def runDiagram (nodes : List RFNode) (edges : List RFEdge) :
    Option (Except String (List (String × Value))) :=
  match convertToEngineGraph nodes edges with
  | none => none
  | some graph =>
    some (match executeGraph graph with
      | .error e => .error e
      | .ok result => .ok (narrowUpdates result.outputs))

mutual
/-- Specification predicate: every WhileLoop node (at any nesting depth)
carries a child graph, so the runner's missing-child-graph branch cannot
fire. -/
def loopsOKNode : Node → Bool
  | .mk _ t _ _ _ cg =>
    match t, cg with
    | .WhileLoop, some g => loopsOKGraph g
    | .WhileLoop, none => false
    | _, _ => true

/-- `loopsOKNode` for every node of a graph. -/
def loopsOKGraph : Graph → Bool
  | .mk _ ns _ => loopsOKNodes ns

/-- `loopsOKNode` for every node of a list. -/
def loopsOKNodes : List Node → Bool
  | [] => true
  | n :: rest => loopsOKNode n && loopsOKNodes rest
end

/-- Membership of a node in a graph at any nesting depth. -/
inductive NodeIn : Node → Graph → Prop where
  | here {n : Node} {g : Graph} : n ∈ g.nodes → NodeIn n g
  | nested {n m : Node} {g g' : Graph} :
      m ∈ g.nodes → m.childGraph = some g' → NodeIn n g' → NodeIn n g

/-- The engine node's `maxIterations` entry is the nullish-coalescing of
some diagram node's entry (same id) with 1000. -/
def maxIterFrom (pool : List RFNode) (n : Node) : Prop :=
  ∃ rf ∈ pool, rf.id = n.id ∧
    jsGet n.data "maxIterations" =
      jsNullish (jsGet rf.data "maxIterations") (Value.num 1000)

/-- Modelled from the spec's resolution contract (§4.2 step 5 wording):
exact name match first; else the sole input when there is exactly one
input and one output; else the input name at the same positional index as
the output among the declared output names; else the output's own name. -/
def registerForOutputSpec (node : Node) (outputName : String) : String :=
  let inputNames := node.inputs.map Prod.fst
  let outputNames := node.outputs.map Prod.fst
  if outputName ∈ inputNames then outputName
  else if inputNames.length = 1 ∧ outputNames.length = 1 then
    inputNames.headD outputName
  else
    match inputNames.get? (outputNames.indexOf outputName) with
    | some name => name
    | none => outputName

/-- Sample Constant node used in the concrete instances below. -/
def sampleConst (i : String) (v : Value) : Node :=
  .mk i .Constant [("value", v)] [] [("value", "number")] none

/-- Sample Indicator node. -/
def sampleInd (i : String) : Node :=
  .mk i .Indicator [] [("value", "number")] [] none

/-- Sample ShiftRegisterRead node. -/
def sampleSrRead (i reg : String) : Node :=
  .mk i .ShiftRegisterRead [("register", .str reg)] [] [("value", "number")] none

/-- Sample ShiftRegisterWrite node. -/
def sampleSrWrite (i reg : String) : Node :=
  .mk i .ShiftRegisterWrite [("register", .str reg)] [("value", "number")] [] none

/-- Sample Increment node (+1). -/
def sampleInc (i : String) : Node :=
  .mk i .Increment [("amount", .num 1)] [("value", "number")] [("result", "number")] none

/-- Sample LessThan node. -/
def sampleLt (i : String) : Node :=
  .mk i .LessThan [] [("a", "number"), ("b", "number")] [("result", "boolean")] none

/-- Sample LoopCondition node. -/
def sampleCond (i : String) : Node :=
  .mk i .LoopCondition [] [("continue", "boolean")] [] none

/-- Sample wire. -/
def sampleEdge (a ta b tb : String) : Edge := ⟨⟨a, ta⟩, ⟨b, tb⟩⟩

/-- Child graph with an always-true condition: increment the "init"
register by 1 each pass. -/
def capChild : Graph := .mk "loop-inner"
  [sampleSrRead "sr-read" "init", sampleInc "inc", sampleSrWrite "sr-write" "init",
   sampleConst "always-true" (.bool true), sampleCond "condition"]
  [sampleEdge "sr-read" "value" "inc" "value",
   sampleEdge "inc" "result" "sr-write" "value",
   sampleEdge "always-true" "value" "condition" "continue"]

/-- WhileLoop node with cap 5 over `capChild`. -/
def capLoop : Node := .mk "loop" .WhileLoop [("maxIterations", .num 5)]
  [("init", "number")] [("result", "number")] (some capChild)

/-- Graph for the cap-precedence scenario: seed 0, always-true condition,
cap 5, displayed on an Indicator. -/
def gCap : Graph := .mk "root"
  [sampleConst "init" (.num 0), capLoop, sampleInd "display"]
  [sampleEdge "init" "value" "loop" "init",
   sampleEdge "loop" "result" "display" "value"]

/-- Inner child graph of the nested scenario: increments "init" and runs
exactly 4 passes via its iteration counter. -/
def innerChild : Graph := .mk "inner-inner"
  [sampleSrRead "i-sr-read" "init", sampleInc "i-inc", sampleSrWrite "i-sr-write" "init",
   sampleSrRead "i-it-read" "iter", sampleInc "i-it-inc", sampleSrWrite "i-it-write" "iter",
   sampleConst "i-limit" (.num 4), sampleLt "i-cmp", sampleCond "i-cond"]
  [sampleEdge "i-sr-read" "value" "i-inc" "value",
   sampleEdge "i-inc" "result" "i-sr-write" "value",
   sampleEdge "i-it-read" "value" "i-it-inc" "value",
   sampleEdge "i-it-inc" "result" "i-it-write" "value",
   sampleEdge "i-it-inc" "result" "i-cmp" "a",
   sampleEdge "i-limit" "value" "i-cmp" "b",
   sampleEdge "i-cmp" "result" "i-cond" "continue"]

/-- Inner WhileLoop node of the nested scenario. -/
def innerLoop : Node := .mk "inner-loop" .WhileLoop [("maxIterations", .num 100)]
  [("init", "number")] [("result", "number")] (some innerChild)

/-- Outer child graph of the nested scenario: feeds the accumulator
through the inner loop and back into the outer register, 3 passes. -/
def outerChild : Graph := .mk "outer-inner"
  [sampleSrRead "o-sr-read" "init", innerLoop, sampleSrWrite "o-sr-write" "init",
   sampleSrRead "o-it-read" "iter", sampleInc "o-it-inc", sampleSrWrite "o-it-write" "iter",
   sampleConst "o-limit" (.num 3), sampleLt "o-cmp", sampleCond "o-cond"]
  [sampleEdge "o-sr-read" "value" "inner-loop" "init",
   sampleEdge "inner-loop" "result" "o-sr-write" "value",
   sampleEdge "o-it-read" "value" "o-it-inc" "value",
   sampleEdge "o-it-inc" "result" "o-it-write" "value",
   sampleEdge "o-it-inc" "result" "o-cmp" "a",
   sampleEdge "o-limit" "value" "o-cmp" "b",
   sampleEdge "o-cmp" "result" "o-cond" "continue"]

/-- Outer WhileLoop node of the nested scenario. -/
def outerLoop : Node := .mk "outer-loop" .WhileLoop [("maxIterations", .num 100)]
  [("init", "number")] [("result", "number")] (some outerChild)

/-- Graph for the nesting scenario: outer 3 passes, inner 4 passes each,
inner body increments by 1, result written back as next outer seed. -/
def gNested : Graph := .mk "root"
  [sampleConst "init-outer" (.num 0), outerLoop, sampleInd "display"]
  [sampleEdge "init-outer" "value" "outer-loop" "init",
   sampleEdge "outer-loop" "result" "display" "value"]

/-- A WhileLoop node with no child graph (constructible only by hand: the
converter never produces one). -/
def badLoop : Node := .mk "w" .WhileLoop [] [("init", "number")] [("result", "number")] none

/-- Graph containing one healthy Constant and one child-less WhileLoop. -/
def gBad : Graph := .mk "root" [sampleConst "c" (.num 5), badLoop] []

/-- Graph with a single disconnected Indicator. -/
def c8wGraph : Graph := .mk "root" [sampleInd "lone"] []

/-- Child graph with a single, unwired LoopCondition node. -/
def c10Child : Graph := .mk "wc" [sampleCond "cnd"] []

/-- WhileLoop node over `c10Child` with cap 3. -/
def c10Node : Node := .mk "w" .WhileLoop [("maxIterations", .num 3)]
  [("init", "number")] [("result", "number")] (some c10Child)

/-- Node with two inputs and three outputs exercising the positional
branch of the output-register resolution. -/
def c7wNode : Node := .mk "x" .WhileLoop []
  [("a", "number"), ("b", "number")]
  [("p", "number"), ("q", "number"), ("r", "number")] none

/-- Diagram node: numeric control whose value is the boolean `true`. -/
def rfCtrlTrue : RFNode := ⟨"c", some "NumericControl", none, [("value", .bool true)]⟩

/-- Diagram node: numeric display. -/
def rfIndJs : RFNode := ⟨"ind", some "NumericIndicator", none, []⟩

/-- Diagram wire from the control to the display. -/
def rfWireCI : RFEdge := ⟨"c", some "value", "ind", some "value"⟩

/-- Diagram node: loop container whose maxIterations is a string. -/
def rfLoopStr : RFNode := ⟨"w", some "WhileLoop", none, [("maxIterations", .str "many")]⟩

/-- Diagram node: loop container with numeric maxIterations 3. -/
def rfLoop3 : RFNode := ⟨"w", some "WhileLoop", none, [("maxIterations", .num 3)]⟩

/-- The engine graph lowered from the single loop-container diagram. -/
def c2wGraph : Graph := (convertToEngineGraph [rfLoop3] []).getD (.mk "" [] [])

/-- The WhileLoop engine node of `c2wGraph`. -/
def c2wNode : Node := c2wGraph.nodes.headD (.mk "" .Constant [] [] [] none)

/-- Diagram for the C9 witness: control feeding a loop container holding
an Add node wired through tunnels, displayed on an indicator. -/
def c9wNodes : List RFNode :=
  [⟨"i0", some "NumericControl", none, [("value", .num 0)]⟩,
   ⟨"w", some "WhileLoop", none, [("maxIterations", .num 3)]⟩,
   ⟨"p", some "Add", some "w", []⟩,
   ⟨"ind2", some "NumericIndicator", none, []⟩]

/-- Wires for the C9 witness diagram. -/
def c9wEdges : List RFEdge :=
  [⟨"i0", some "value", "w", some "init"⟩,
   ⟨"w", some "init-tunnel-in", "p", some "a"⟩,
   ⟨"w", some "init-tunnel-in", "p", some "b"⟩,
   ⟨"p", some "result", "w", some "result-tunnel-out"⟩,
   ⟨"w", some "result", "ind2", some "value"⟩]

/-- The engine graph lowered from the C9 witness diagram. -/
def c9wGraph : Graph := (convertToEngineGraph c9wNodes c9wEdges).getD (.mk "" [] [])

/-- Register state for the C4 witness: "init" seeded with 0. -/
def c4wRegs : RegMap := [(Value.str "init", Value.num 0)]

/-- The node outputs of one pass over `capChild` from `c4wRegs`. -/
def c4wOut : NodeOutputs :=
  (execNodesWith executeWhileLoop capChild c4wRegs (topologicalSort capChild) []).toOption.getD []

/-- The engine graph lowered from the boolean-control diagram of the C1
instances. -/
def c1wGraph : Graph :=
  (convertToEngineGraph [rfCtrlTrue, rfIndJs] [rfWireCI]).getD (.mk "" [] [])

/-- The execution result of `c1wGraph`. -/
def c1wResult : ExecutionResult := (executeGraph c1wGraph).toOption.getD ⟨[]⟩

theorem mget?_mset {κ α : Type} [DecidableEq κ] (m : List (κ × α)) (k k' : κ) (v : α) :
    mget? (mset m k v) k' = if k = k' then some v else mget? m k' := by
  induction m with
  | nil => simp [mset, mget?]
  | cons hd tl ih =>
    obtain ⟨k0, v0⟩ := hd
    by_cases h0 : k0 = k
    · subst h0
      by_cases h1 : k0 = k'
      · subst h1; simp [mset, mget?]
      · simp [mset, mget?, h1]
    · by_cases h1 : k0 = k'
      · subst h1
        have : ¬ k = k0 := fun h => h0 h.symm
        simp [mset, mget?, h0, this]
      · simp [mset, mget?, h0, h1, ih]

theorem mget?_mset_self {κ α : Type} [DecidableEq κ] (m : List (κ × α)) (k : κ) (v : α) :
    mget? (mset m k v) k = some v := by
  simp [mget?_mset]

theorem mget?_mset_ne {κ α : Type} [DecidableEq κ] (m : List (κ × α)) {k k' : κ} (v : α)
    (h : k ≠ k') : mget? (mset m k v) k' = mget? m k' := by
  simp [mget?_mset, h]

/-- Membership of a value stored under some key. -/
theorem mget?_mem {κ α : Type} [DecidableEq κ] {m : List (κ × α)} {k : κ} {v : α}
    (h : mget? m k = some v) : (k, v) ∈ m ∨ ∃ k', (k', v) ∈ m := by
  induction m with
  | nil => simp [mget?] at h
  | cons hd tl ih =>
    obtain ⟨k0, v0⟩ := hd
    by_cases h0 : k0 = k
    · subst h0
      simp [mget?] at h
      subst h
      exact Or.inl (List.mem_cons_self _ _)
    · simp [mget?, h0] at h
      rcases ih h with h' | ⟨k', h'⟩
      · exact Or.inl (List.mem_cons_of_mem _ h')
      · exact Or.inr ⟨k', List.mem_cons_of_mem _ h'⟩

theorem nodeFuel_pos (n : Node) : 1 ≤ nodeFuel n := by
  cases n with
  | mk i t d ins outs cg =>
    cases cg with
    | none => simp [nodeFuel]
    | some g => simp [nodeFuel]

theorem nodeFuel_lt_nodesFuel {n : Node} {ns : List Node} (h : n ∈ ns) :
    nodeFuel n < nodesFuel ns := by
  induction ns with
  | nil => cases h
  | cons hd tl ih =>
    rcases List.mem_cons.mp h with h' | h'
    · subst h'; simp [nodesFuel]; omega
    · have := ih h'
      simp [nodesFuel]
      omega

theorem nodeFuel_lt_graphFuel {n : Node} {g : Graph} (h : n ∈ g.nodes) :
    nodeFuel n < graphFuel g := by
  cases g with
  | mk i ns es =>
    simp [Graph.nodes] at h
    have := nodeFuel_lt_nodesFuel h
    simp [graphFuel]
    omega

theorem graphFuel_lt_nodeFuel {n : Node} {g : Graph} (h : n.childGraph = some g) :
    graphFuel g < nodeFuel n := by
  cases n with
  | mk i t d ins outs cg =>
    simp [Node.childGraph] at h
    subst h
    simp [nodeFuel]

theorem loopsOKNodes_mem {ns : List Node} {n : Node}
    (hall : loopsOKNodes ns = true) (h : n ∈ ns) : loopsOKNode n = true := by
  induction ns with
  | nil => cases h
  | cons hd tl ih =>
    simp [loopsOKNodes] at hall
    rcases List.mem_cons.mp h with h' | h'
    · subst h'; exact hall.1
    · exact ih hall.2 h'

theorem loopsOKGraph_mem {g : Graph} {n : Node}
    (hg : loopsOKGraph g = true) (h : n ∈ g.nodes) : loopsOKNode n = true := by
  cases g with
  | mk i ns es =>
    simp [loopsOKGraph] at hg
    exact loopsOKNodes_mem hg (by simpa [Graph.nodes] using h)

theorem loopsOKNode_whileLoop {n : Node} (ht : n.ntype = .WhileLoop)
    (hok : loopsOKNode n = true) :
    ∃ g, n.childGraph = some g ∧ loopsOKGraph g = true := by
  cases n with
  | mk i t d ins outs cg =>
    simp [Node.ntype] at ht
    subst ht
    cases cg with
    | none => simp [loopsOKNode] at hok
    | some g =>
      refine ⟨g, rfl, ?_⟩
      simpa [loopsOKNode] using hok

theorem buildNodeMap_mem_aux {ns : List Node} {acc : List (String × Node)}
    {i : String} {n : Node}
    (h : mget? (ns.foldl (fun m n => mset m n.id n) acc) i = some n) :
    n ∈ ns ∨ mget? acc i = some n := by
  induction ns generalizing acc with
  | nil => exact Or.inr h
  | cons hd tl ih =>
    rcases ih h with h' | h'
    · exact Or.inl (List.mem_cons_of_mem _ h')
    · rw [mget?_mset] at h'
      by_cases hi : hd.id = i
      · simp [hi] at h'
        subst h'
        exact Or.inl (List.mem_cons_self _ _)
      · simp [hi] at h'
        exact Or.inr h'

theorem buildNodeMap_mem {ns : List Node} {i : String} {n : Node}
    (h : mget? (buildNodeMap ns) i = some n) : n ∈ ns := by
  rcases buildNodeMap_mem_aux h with h' | h'
  · exact h'
  · simp [mget?] at h'

theorem buildNodeMap_id_aux {ns : List Node} {acc : List (String × Node)}
    {i : String} {n : Node}
    (hacc : ∀ k v, mget? acc k = some v → Node.id v = k)
    (h : mget? (ns.foldl (fun m n => mset m n.id n) acc) i = some n) :
    n.id = i := by
  induction ns generalizing acc with
  | nil => exact hacc i n h
  | cons hd tl ih =>
    refine ih ?_ h
    intro k v hkv
    rw [mget?_mset] at hkv
    by_cases hk : hd.id = k
    · simp [hk] at hkv; subst hkv; exact hk
    · simp [hk] at hkv; exact hacc k v hkv

theorem buildNodeMap_id {ns : List Node} {i : String} {n : Node}
    (h : mget? (buildNodeMap ns) i = some n) : n.id = i :=
  buildNodeMap_id_aux (fun k v hv => by simp [mget?] at hv) h

theorem buildNodeMap_nodup_aux {ns : List Node} {acc : List (String × Node)}
    {n : Node} (hmem : n ∈ ns) (hnd : (ns.map Node.id).Nodup) :
    mget? (ns.foldl (fun m n => mset m n.id n) acc) n.id = some n := by
  induction ns generalizing acc with
  | nil => cases hmem
  | cons hd tl ih =>
    simp [List.nodup_cons] at hnd
    rcases List.mem_cons.mp hmem with h' | h'
    · subst h'
      have hninv : ∀ (tll : List Node) (acc2 : List (String × Node)),
          (∀ m ∈ tll, Node.id m ≠ n.id) → mget? acc2 n.id = some n →
          mget? (tll.foldl (fun m n => mset m n.id n) acc2) n.id = some n := by
        intro tll
        induction tll with
        | nil => intro acc2 _ h2; exact h2
        | cons h2 t2 ih2 =>
          intro acc2 hne hget
          refine ih2 _ (fun m hm => hne m (List.mem_cons_of_mem _ hm)) ?_
          rw [mget?_mset_ne]
          · exact hget
          · exact hne h2 (List.mem_cons_self _ _)
      refine hninv tl _ ?_ (mget?_mset_self _ _ _)
      intro m hm hmeq
      exact hnd.1 m hm hmeq
    · exact ih h' hnd.2

theorem buildNodeMap_nodup {ns : List Node} {n : Node} (hmem : n ∈ ns)
    (hnd : (ns.map Node.id).Nodup) :
    mget? (buildNodeMap ns) n.id = some n :=
  buildNodeMap_nodup_aux hmem hnd

theorem execNodesWith_congr {e1 e2 : ExecFn} {g : Graph}
    (h : ∀ n ∈ g.nodes, ∀ inp, e1 n inp = e2 n inp) (regs : RegMap) :
    ∀ ids acc, execNodesWith e1 g regs ids acc = execNodesWith e2 g regs ids acc := by
  intro ids
  induction ids with
  | nil => intro acc; rfl
  | cons nodeId rest ih =>
    intro acc
    simp only [execNodesWith]
    split
    · exact ih acc
    · rename_i node hfind
      have hmem := buildNodeMap_mem hfind
      split
      · exact ih _
      · exact ih _
      · exact ih _
      · rw [h node hmem (resolveInputs node g acc)]
        split
        · rfl
        · exact ih _
      · exact ih _

theorem execIterWith_congr {e1 e2 : ExecFn} {g : Graph}
    (h : ∀ n ∈ g.nodes, ∀ inp, e1 n inp = e2 n inp) (regs : RegMap) :
    execIterWith e1 g regs = execIterWith e2 g regs := by
  simp only [execIterWith]
  rw [execNodesWith_congr h regs]

theorem loopGoWith_congr {e1 e2 : ExecFn} {g : Graph}
    (h : ∀ n ∈ g.nodes, ∀ inp, e1 n inp = e2 n inp) (cap : Value) :
    ∀ fuel iterations regs,
      loopGoWith e1 g cap fuel iterations regs =
        loopGoWith e2 g cap fuel iterations regs := by
  intro fuel
  induction fuel with
  | zero => intro iterations regs; rfl
  | succ fuel ih =>
    intro iterations regs
    simp only [loopGoWith]
    split
    · rw [execIterWith_congr h regs]
      split
      · rfl
      · split
        · exact ih _ _
        · rfl
    · rfl

theorem execTopLevelWith_congr {e1 e2 : ExecFn} {g : Graph}
    (h : ∀ n ∈ g.nodes, ∀ inp, e1 n inp = e2 n inp) :
    ∀ ids acc, execTopLevelWith e1 g ids acc = execTopLevelWith e2 g ids acc := by
  intro ids
  induction ids with
  | nil => intro acc; rfl
  | cons nodeId rest ih =>
    intro acc
    simp only [execTopLevelWith]
    split
    · exact ih acc
    · rename_i node hfind
      have hmem := buildNodeMap_mem hfind
      by_cases htype : node.ntype = .WhileLoop
      · simp only [htype, if_true]
        rw [h node hmem (resolveInputs node g acc)]
        split
        · rfl
        · exact ih _
      · simp only [htype, if_false]
        exact ih _

theorem execWL_fuel_irrel :
    ∀ fuel (node : Node) (inputs : TerminalValues), nodeFuel node ≤ fuel →
      execWL fuel node inputs = executeWhileLoop node inputs := by
  intro fuel
  induction fuel using Nat.strong_induction_on with
  | _ fuel ih =>
    intro node inputs hle
    have h1 := nodeFuel_pos node
    obtain ⟨f, rfl⟩ : ∃ f, fuel = f + 1 := ⟨fuel - 1, by omega⟩
    obtain ⟨m, hm⟩ : ∃ m, nodeFuel node = m + 1 := ⟨nodeFuel node - 1, by omega⟩
    unfold executeWhileLoop
    rw [hm]
    simp only [execWL]
    split
    · rfl
    · rename_i childGraph hcg
      have hlt := graphFuel_lt_nodeFuel hcg
      have hcongr : ∀ n ∈ childGraph.nodes, ∀ inp,
          execWL f n inp = execWL m n inp := by
        intro n hn inp
        have hnf := nodeFuel_lt_graphFuel hn
        have eq1 : execWL f n inp = executeWhileLoop n inp :=
          ih f (by omega) n inp (by omega)
        have eq2 : execWL m n inp = executeWhileLoop n inp :=
          ih m (by omega) n inp (by omega)
        rw [eq1, eq2]
      rw [loopGoWith_congr hcongr]

/-- The source-shaped unfolding of `executeWhileLoop`: the recursive calls
for nested loops are `executeWhileLoop` itself (fuel bookkeeping
eliminated by `execWL_fuel_irrel`). -/
theorem executeWhileLoop_eq (node : Node) (inputs : TerminalValues) :
    executeWhileLoop node inputs =
      match node.childGraph with
      | none => .error ("WhileLoop node \"" ++ node.id ++ "\" has no child graph")
      | some childGraph =>
        let maxIterations := jsNullish (jsGet node.data "maxIterations") (.num 1000)
        let regs := seedChildRegisters childGraph (initShiftRegisters inputs)
        match loopGoWith executeWhileLoop childGraph maxIterations
            (iterFuel maxIterations) 0 regs with
        | .error e => .error e
        | .ok finalRegs => .ok (loopOutputs node finalRegs) := by
  have h1 := nodeFuel_pos node
  obtain ⟨m, hm⟩ : ∃ m, nodeFuel node = m + 1 := ⟨nodeFuel node - 1, by omega⟩
  conv_lhs => rw [executeWhileLoop, hm]
  simp only [execWL]
  split
  · rfl
  · rename_i childGraph hcg
    have hlt := graphFuel_lt_nodeFuel hcg
    have hcongr : ∀ n ∈ childGraph.nodes, ∀ inp,
        execWL m n inp = executeWhileLoop n inp := by
      intro n hn inp
      have hnf := nodeFuel_lt_graphFuel hn
      exact execWL_fuel_irrel m n inp (by omega)
    rw [loopGoWith_congr hcongr]

theorem execNodesWith_ok {exec : ExecFn} {g : Graph}
    (h : ∀ n ∈ g.nodes, n.ntype = .WhileLoop → ∀ inp, ∃ o, exec n inp = .ok o)
    (regs : RegMap) :
    ∀ ids acc, ∃ out, execNodesWith exec g regs ids acc = .ok out := by
  intro ids
  induction ids with
  | nil => intro acc; exact ⟨acc, rfl⟩
  | cons nodeId rest ih =>
    intro acc
    simp only [execNodesWith]
    split
    · exact ih acc
    · rename_i node hfind
      have hmem := buildNodeMap_mem hfind
      split
      · exact ih _
      · exact ih _
      · exact ih _
      · rename_i htype
        obtain ⟨o, ho⟩ := h node hmem htype (resolveInputs node g acc)
        rw [ho]
        exact ih _
      · exact ih _

theorem execIterWith_ok {exec : ExecFn} {g : Graph}
    (h : ∀ n ∈ g.nodes, n.ntype = .WhileLoop → ∀ inp, ∃ o, exec n inp = .ok o)
    (regs : RegMap) :
    ∃ r, execIterWith exec g regs = .ok r := by
  simp only [execIterWith]
  obtain ⟨out, hout⟩ := execNodesWith_ok h regs (topologicalSort g) []
  rw [hout]
  exact ⟨_, rfl⟩

theorem loopGoWith_ok {exec : ExecFn} {g : Graph}
    (h : ∀ n ∈ g.nodes, n.ntype = .WhileLoop → ∀ inp, ∃ o, exec n inp = .ok o)
    (cap : Value) :
    ∀ fuel iterations regs, ∃ r, loopGoWith exec g cap fuel iterations regs = .ok r := by
  intro fuel
  induction fuel with
  | zero => intro iterations regs; exact ⟨regs, rfl⟩
  | succ fuel ih =>
    intro iterations regs
    simp only [loopGoWith]
    split
    · split
      · rename_i e heq
        obtain ⟨r, hr⟩ := execIterWith_ok h regs
        rw [heq] at hr
        simp at hr
      · split
        · exact ih _ _
        · exact ⟨_, rfl⟩
    · exact ⟨regs, rfl⟩

theorem executeWhileLoop_ok :
    ∀ (node : Node), node.ntype = .WhileLoop → loopsOKNode node = true →
      ∀ inputs, ∃ out, executeWhileLoop node inputs = .ok out := by
  have main : ∀ k (node : Node), nodeFuel node ≤ k → node.ntype = .WhileLoop →
      loopsOKNode node = true →
      ∀ inputs, ∃ out, executeWhileLoop node inputs = .ok out := by
    intro k
    induction k using Nat.strong_induction_on with
    | _ k ih =>
      intro node hk htype hok inputs
      obtain ⟨g, hcg, hg⟩ := loopsOKNode_whileLoop htype hok
      rw [executeWhileLoop_eq, hcg]
      simp only []
      have hrec : ∀ n ∈ g.nodes, n.ntype = .WhileLoop → ∀ inp,
          ∃ o, executeWhileLoop n inp = .ok o := by
        intro n hn htn inp
        have h1 := nodeFuel_lt_graphFuel hn
        have h2 := graphFuel_lt_nodeFuel hcg
        exact ih (nodeFuel n) (by omega) n (le_refl _) htn (loopsOKGraph_mem hg hn) inp
      obtain ⟨r, hr⟩ := loopGoWith_ok hrec
        (jsNullish (jsGet node.data "maxIterations") (.num 1000))
        (iterFuel (jsNullish (jsGet node.data "maxIterations") (.num 1000))) 0
        (seedChildRegisters g (initShiftRegisters inputs))
      rw [hr]
      exact ⟨_, rfl⟩
  intro node
  exact main (nodeFuel node) node (le_refl _)

theorem execTopLevelWith_ok {g : Graph} (hg : loopsOKGraph g = true) :
    ∀ ids acc, ∃ out, execTopLevelWith executeWhileLoop g ids acc = .ok out := by
  intro ids
  induction ids with
  | nil => intro acc; exact ⟨acc, rfl⟩
  | cons nodeId rest ih =>
    intro acc
    simp only [execTopLevelWith]
    split
    · exact ih acc
    · rename_i node hfind
      have hmem := buildNodeMap_mem hfind
      by_cases htype : node.ntype = .WhileLoop
      · simp only [htype, if_true]
        obtain ⟨o, ho⟩ := executeWhileLoop_ok node htype (loopsOKGraph_mem hg hmem)
          (resolveInputs node g acc)
        rw [ho]
        exact ih _
      · simp only [htype, if_false]
        exact ih _

theorem executeGraph_ok {g : Graph} (hg : loopsOKGraph g = true) :
    ∃ r, executeGraph g = .ok r := by
  simp only [executeGraph]
  obtain ⟨out, hout⟩ := execTopLevelWith_ok hg (topologicalSort g) []
  rw [hout]
  exact ⟨_, rfl⟩

theorem mset_length_le {κ α : Type} [DecidableEq κ] (m : List (κ × α)) (k : κ) (v : α) :
    (mset m k v).length ≤ m.length + 1 := by
  induction m with
  | nil => simp [mset]
  | cons hd tl ih =>
    obtain ⟨k0, v0⟩ := hd
    by_cases h0 : k0 = k
    · simp [mset, h0]
    · simp [mset, h0]
      omega

theorem kahnNeighbors_queue_extends :
    ∀ (nbs : List String) (indeg : List (String × Int)) (queue : List String),
      ∃ extra, (kahnNeighbors indeg queue nbs).2 = queue ++ extra := by
  intro nbs
  induction nbs with
  | nil => intro indeg queue; exact ⟨[], by simp [kahnNeighbors]⟩
  | cons nb rest ih =>
    intro indeg queue
    simp only [kahnNeighbors]
    by_cases h0 : ((mget? indeg nb).getD 1) - 1 = 0
    · simp only [h0, if_true]
      obtain ⟨extra, hx⟩ := ih (mset indeg nb 0) (queue ++ [nb])
      exact ⟨[nb] ++ extra, by simp [hx]⟩
    · simp only [h0, if_false]
      exact ih _ _

theorem kahnLoop_sorted_extends (adj : List (String × List String)) :
    ∀ (fuel : Nat) (indeg : List (String × Int)) (queue sorted : List String),
      ∃ rest, kahnLoop adj fuel indeg queue sorted = sorted ++ rest := by
  intro fuel
  induction fuel with
  | zero => intro indeg queue sorted; exact ⟨[], by simp [kahnLoop]⟩
  | succ fuel ih =>
    intro indeg queue sorted
    cases queue with
    | nil => exact ⟨[], by simp [kahnLoop]⟩
    | cons q rest =>
      simp only [kahnLoop]
      obtain ⟨r, hr⟩ := ih
        (kahnNeighbors indeg rest ((mget? adj q).getD [])).1
        (kahnNeighbors indeg rest ((mget? adj q).getD [])).2
        (sorted ++ [q])
      exact ⟨[q] ++ r, by simp [hr]⟩

theorem kahnLoop_mem_of_queue (adj : List (String × List String)) :
    ∀ (fuel p : Nat) (indeg : List (String × Int)) (queue sorted : List String)
      (x : String), queue.get? p = some x → p < fuel →
      x ∈ kahnLoop adj fuel indeg queue sorted := by
  intro fuel
  induction fuel with
  | zero => intro p indeg queue sorted x _ hp; omega
  | succ fuel ih =>
    intro p indeg queue sorted x hget hp
    cases queue with
    | nil => simp at hget
    | cons q rest =>
      simp only [kahnLoop]
      cases p with
      | zero =>
        simp at hget
        subst hget
        obtain ⟨r, hr⟩ := kahnLoop_sorted_extends adj fuel
          (kahnNeighbors indeg rest ((mget? adj q).getD [])).1
          (kahnNeighbors indeg rest ((mget? adj q).getD [])).2
          (sorted ++ [q])
        rw [hr]
        simp
      | succ p' =>
        simp only [List.get?_cons_succ] at hget
        have hlen : p' < rest.length := by
          by_contra hc
          rw [List.get?_eq_none.mpr (by omega)] at hget
          cases hget
        obtain ⟨extra, hx⟩ := kahnNeighbors_queue_extends
          ((mget? adj q).getD []) indeg rest
        refine ih p' _ _ (sorted ++ [q]) x ?_ (by omega)
        rw [hx, List.get?_append hlen]
        exact hget

theorem queue_fold_extends (m : List (String × Int)) :
    ∀ q, ∃ extra,
      m.foldl (fun q kv => if kv.2 = 0 then q ++ [kv.1] else q) q = q ++ extra := by
  induction m with
  | nil => intro q; exact ⟨[], by simp⟩
  | cons hd tl ih =>
    intro q
    by_cases h0 : hd.2 = 0
    · simp only [List.foldl_cons, h0, if_true]
      obtain ⟨extra, hx⟩ := ih (q ++ [hd.1])
      exact ⟨[hd.1] ++ extra, by simp [hx]⟩
    · simp only [List.foldl_cons, h0, if_false]
      exact ih q

theorem queue_fold_mem {m : List (String × Int)} {i : String}
    (h : mget? m i = some 0) :
    ∀ q, i ∈ m.foldl (fun q kv => if kv.2 = 0 then q ++ [kv.1] else q) q := by
  induction m with
  | nil => simp [mget?] at h
  | cons hd tl ih =>
    intro q
    obtain ⟨k0, v0⟩ := hd
    by_cases h0 : k0 = i
    · subst h0
      simp [mget?] at h
      subst h
      simp only [List.foldl_cons, if_true]
      obtain ⟨extra, hx⟩ := queue_fold_extends tl (q ++ [k0])
      rw [hx]
      simp
    · simp [mget?, h0] at h
      simp only [List.foldl_cons]
      by_cases hv : v0 = 0 <;> simp only [hv, if_true, if_false] <;> exact ih h _

theorem queue_fold_length (m : List (String × Int)) :
    ∀ q, (m.foldl (fun q kv => if kv.2 = 0 then q ++ [kv.1] else q) q).length ≤
      q.length + m.length := by
  induction m with
  | nil => intro q; simp
  | cons hd tl ih =>
    intro q
    by_cases h0 : hd.2 = 0
    · simp only [List.foldl_cons, h0, if_true]
      have := ih (q ++ [hd.1])
      simp at this
      simp
      omega
    · simp only [List.foldl_cons, h0, if_false]
      have := ih q
      simp
      omega

theorem nodeFold_indeg_zero {i : String} :
    ∀ (ns : List Node) (p : List (String × Int) × List (String × List String)),
      (mget? p.1 i = some 0 ∨ ∃ n ∈ ns, n.id = i) →
      mget? (ns.foldl
        (fun (p : List (String × Int) × List (String × List String)) node =>
          (mset p.1 node.id 0, mset p.2 node.id [])) p).1 i = some 0 := by
  intro ns
  induction ns with
  | nil =>
    intro p h
    rcases h with h | ⟨n, hn, _⟩
    · exact h
    · cases hn
  | cons hd tl ih =>
    intro p h
    simp only [List.foldl_cons]
    by_cases hid : hd.id = i
    · refine ih _ (Or.inl ?_)
      simp [hid, mget?_mset_self]
    · rcases h with h | ⟨n, hn, hni⟩
      · refine ih _ (Or.inl ?_)
        rw [mget?_mset_ne _ _ hid]
        exact h
      · rcases List.mem_cons.mp hn with h' | h'
        · subst h'; exact absurd hni hid
        · exact ih _ (Or.inr ⟨n, h', hni⟩)

theorem edgeFold_indeg_preserve {i : String} :
    ∀ (es : List Edge) (p : List (String × Int) × List (String × List String)),
      (∀ e ∈ es, e.to'.nodeId ≠ i) →
      mget? (es.foldl
        (fun (p : List (String × Int) × List (String × List String)) edge =>
          (mset p.1 edge.to'.nodeId (((mget? p.1 edge.to'.nodeId).getD 0) + 1),
           mset p.2 edge.from'.nodeId
             (((mget? p.2 edge.from'.nodeId).getD []) ++ [edge.to'.nodeId]))) p).1 i =
      mget? p.1 i := by
  intro es
  induction es with
  | nil => intro p _; rfl
  | cons hd tl ih =>
    intro p h
    simp only [List.foldl_cons]
    rw [ih _ (fun e he => h e (List.mem_cons_of_mem _ he))]
    simp only []
    rw [mget?_mset_ne _ _ (h hd (List.mem_cons_self _ _))]

theorem nodeFold_indeg_length :
    ∀ (ns : List Node) (p : List (String × Int) × List (String × List String)),
      (ns.foldl
        (fun (p : List (String × Int) × List (String × List String)) node =>
          (mset p.1 node.id 0, mset p.2 node.id [])) p).1.length ≤
      p.1.length + ns.length := by
  intro ns
  induction ns with
  | nil => intro p; simp
  | cons hd tl ih =>
    intro p
    simp only [List.foldl_cons]
    have h1 := ih (mset p.1 hd.id 0, mset p.2 hd.id [])
    have h2 := mset_length_le p.1 hd.id (0 : Int)
    simp only [List.length_cons]
    simp at h1
    omega

theorem edgeFold_indeg_length :
    ∀ (es : List Edge) (p : List (String × Int) × List (String × List String)),
      (es.foldl
        (fun (p : List (String × Int) × List (String × List String)) edge =>
          (mset p.1 edge.to'.nodeId (((mget? p.1 edge.to'.nodeId).getD 0) + 1),
           mset p.2 edge.from'.nodeId
             (((mget? p.2 edge.from'.nodeId).getD []) ++ [edge.to'.nodeId]))) p).1.length ≤
      p.1.length + es.length := by
  intro es
  induction es with
  | nil => intro p; simp
  | cons hd tl ih =>
    intro p
    simp only [List.foldl_cons]
    have h1 := ih
      (mset p.1 hd.to'.nodeId (((mget? p.1 hd.to'.nodeId).getD 0) + 1),
       mset p.2 hd.from'.nodeId
         (((mget? p.2 hd.from'.nodeId).getD []) ++ [hd.to'.nodeId]))
    have h2 := mset_length_le p.1 hd.to'.nodeId (((mget? p.1 hd.to'.nodeId).getD 0) + 1)
    simp only [List.length_cons]
    simp at h1
    omega

/-- A node targeted by no edge has in-degree zero, hence sits in the
initial Kahn queue, hence is emitted by the topological sort. -/
theorem topologicalSort_mem {g : Graph} {n : Node} (hmem : n ∈ g.nodes)
    (hnoin : ∀ e ∈ g.edges, e.to'.nodeId ≠ n.id) :
    n.id ∈ topologicalSort g := by
  unfold topologicalSort
  simp only []
  have hzero : mget?
      (g.edges.foldl
        (fun (p : List (String × Int) × List (String × List String)) edge =>
          (mset p.1 edge.to'.nodeId (((mget? p.1 edge.to'.nodeId).getD 0) + 1),
           mset p.2 edge.from'.nodeId
             (((mget? p.2 edge.from'.nodeId).getD []) ++ [edge.to'.nodeId])))
        (g.nodes.foldl
          (fun (p : List (String × Int) × List (String × List String)) node =>
            (mset p.1 node.id 0, mset p.2 node.id [])) ([], []))).1 n.id = some 0 := by
    rw [edgeFold_indeg_preserve g.edges _ hnoin]
    exact nodeFold_indeg_zero g.nodes _ (Or.inr ⟨n, hmem, rfl⟩)
  have hq := queue_fold_mem hzero []
  obtain ⟨p, hp⟩ := List.mem_iff_get?.mp hq
  have hplen : p < (List.foldl
      (fun q kv => if kv.2 = 0 then q ++ [kv.1] else q) []
      (g.edges.foldl
        (fun (p : List (String × Int) × List (String × List String)) edge =>
          (mset p.1 edge.to'.nodeId (((mget? p.1 edge.to'.nodeId).getD 0) + 1),
           mset p.2 edge.from'.nodeId
             (((mget? p.2 edge.from'.nodeId).getD []) ++ [edge.to'.nodeId])))
        (g.nodes.foldl
          (fun (p : List (String × Int) × List (String × List String)) node =>
            (mset p.1 node.id 0, mset p.2 node.id [])) ([], []))).1).length := by
    by_contra hc
    rw [List.get?_eq_none.mpr (by omega)] at hp
    cases hp
  have hqlen := queue_fold_length
    (g.edges.foldl
      (fun (p : List (String × Int) × List (String × List String)) edge =>
        (mset p.1 edge.to'.nodeId (((mget? p.1 edge.to'.nodeId).getD 0) + 1),
         mset p.2 edge.from'.nodeId
           (((mget? p.2 edge.from'.nodeId).getD []) ++ [edge.to'.nodeId])))
      (g.nodes.foldl
        (fun (p : List (String × Int) × List (String × List String)) node =>
          (mset p.1 node.id 0, mset p.2 node.id [])) ([], []))).1 []
  have hilen := edgeFold_indeg_length g.edges
    (g.nodes.foldl
      (fun (p : List (String × Int) × List (String × List String)) node =>
        (mset p.1 node.id 0, mset p.2 node.id [])) ([], []))
  have hnlen := nodeFold_indeg_length g.nodes ([], [])
  simp only [List.length_nil] at hqlen hnlen hilen
  refine kahnLoop_mem_of_queue _ _ p _ _ _ _ hp ?_
  omega

theorem resolveInputs_no_incoming {node : Node} {g : Graph}
    (hnoin : ∀ e ∈ g.edges, e.to'.nodeId ≠ node.id) (acc : NodeOutputs) :
    resolveInputs node g acc = [] := by
  unfold resolveInputs
  have aux : ∀ (es : List Edge) (inputs : TerminalValues),
      (∀ e ∈ es, e.to'.nodeId ≠ node.id) →
      es.foldl
        (fun inputs edge =>
          if edge.to'.nodeId = node.id then
            match mget? acc edge.from'.nodeId with
            | some sourceOutputs =>
              mset inputs edge.to'.terminal (jsGet sourceOutputs edge.from'.terminal)
            | none => inputs
          else inputs) inputs = inputs := by
    intro es
    induction es with
    | nil => intro inputs _; rfl
    | cons hd tl ih =>
      intro inputs h
      simp only [List.foldl_cons, h hd (List.mem_cons_self _ _), if_false]
      exact ih inputs (fun e he => h e (List.mem_cons_of_mem _ he))
  exact aux g.edges [] hnoin

theorem nodup_id_eq {ns : List Node} {n m : Node}
    (hnd : (ns.map Node.id).Nodup) (hn : n ∈ ns) (hm : m ∈ ns)
    (hid : n.id = m.id) : n = m := by
  induction ns with
  | nil => cases hn
  | cons hd tl ih =>
    simp [List.nodup_cons] at hnd
    rcases List.mem_cons.mp hn with h1 | h1 <;>
      rcases List.mem_cons.mp hm with h2 | h2
    · rw [h1, h2]
    · subst h1
      exact absurd (hid ▸ List.mem_map_of_mem Node.id h2) (by
        intro hc
        obtain ⟨x, hx, hxe⟩ := List.mem_map.mp hc
        exact hnd.1 x hx hxe)
    · subst h2
      exact absurd (hid ▸ List.mem_map_of_mem Node.id h1) (by
        intro hc
        obtain ⟨x, hx, hxe⟩ := List.mem_map.mp hc
        exact hnd.1 x hx hxe)
    · exact ih hnd.2 h1 h2

theorem execTopLevelWith_entry {exec : ExecFn} {g : Graph} {n : Node}
    {c : TerminalValues}
    (hfind : mget? (buildNodeMap g.nodes) n.id = some n)
    (htype : n.ntype ≠ .WhileLoop)
    (hconst : ∀ acc, executeNode n (resolveInputs n g acc) = c) :
    ∀ ids acc out, execTopLevelWith exec g ids acc = .ok out →
      (n.id ∈ ids ∨ mget? acc n.id = some c) → mget? out n.id = some c := by
  intro ids
  induction ids with
  | nil =>
    intro acc out hrun hin
    simp only [execTopLevelWith] at hrun
    cases hrun
    rcases hin with hin | hin
    · cases hin
    · exact hin
  | cons nodeId rest ih =>
    intro acc out hrun hin
    simp only [execTopLevelWith] at hrun
    by_cases hid : nodeId = n.id
    · subst hid
      rw [hfind] at hrun
      simp only [htype, if_false] at hrun
      rw [hconst acc] at hrun
      exact ih _ out hrun (Or.inr (mget?_mset_self _ _ _))
    · cases hfind2 : mget? (buildNodeMap g.nodes) nodeId with
      | none =>
        rw [hfind2] at hrun
        refine ih _ out hrun ?_
        rcases hin with hin | hin
        · rcases List.mem_cons.mp hin with h' | h'
          · exact absurd h'.symm hid
          · exact Or.inl h'
        · exact Or.inr hin
      | some node =>
        rw [hfind2] at hrun
        have hnid : node.id = nodeId := buildNodeMap_id hfind2
        simp only [] at hrun
        rcases hcall : (if node.ntype = NodeType.WhileLoop
            then exec node (resolveInputs node g acc)
            else Except.ok (executeNode node (resolveInputs node g acc))) with e | outputs
        · rw [hcall] at hrun
          cases hrun
        · rw [hcall] at hrun
          refine ih _ out hrun ?_
          rcases hin with hin | hin
          · rcases List.mem_cons.mp hin with h' | h'
            · exact absurd h'.symm hid
            · exact Or.inl h'
          · refine Or.inr ?_
            rw [mget?_mset_ne]
            · exact hin
            · rw [hnid]; exact hid

theorem execNodesWith_cons_cond {exec : ExecFn} {g : Graph} {regs : RegMap}
    {nodeId : String} {n : Node}
    (hfind : mget? (buildNodeMap g.nodes) nodeId = some n)
    (htype : n.ntype = .LoopCondition) (rest : List String) (acc : NodeOutputs) :
    execNodesWith exec g regs (nodeId :: rest) acc =
      execNodesWith exec g regs rest (mset acc n.id (resolveInputs n g acc)) := by
  simp only [execNodesWith]
  split
  · rename_i hnone; rw [hfind] at hnone; cases hnone
  · rename_i node hsome
    rw [hfind] at hsome
    injection hsome with hsome
    subst hsome
    rw [htype]

theorem execNodesWith_cons_srread {exec : ExecFn} {g : Graph} {regs : RegMap}
    {nodeId : String} {n : Node}
    (hfind : mget? (buildNodeMap g.nodes) nodeId = some n)
    (htype : n.ntype = .ShiftRegisterRead) (rest : List String) (acc : NodeOutputs) :
    execNodesWith exec g regs (nodeId :: rest) acc =
      execNodesWith exec g regs rest
        (mset acc n.id
          [("value", (mget? regs (jsGet n.data "register")).getD .undef)]) := by
  simp only [execNodesWith]
  split
  · rename_i hnone; rw [hfind] at hnone; cases hnone
  · rename_i node hsome
    rw [hfind] at hsome
    injection hsome with hsome
    subst hsome
    rw [htype]

theorem execNodesWith_cons_shape {exec : ExecFn} {g : Graph} {regs : RegMap}
    {nodeId : String} {rest : List String} {acc : NodeOutputs} {out : NodeOutputs}
    (hrun : execNodesWith exec g regs (nodeId :: rest) acc = .ok out) :
    (execNodesWith exec g regs rest acc = .ok out) ∨
    (∃ node outs, mget? (buildNodeMap g.nodes) nodeId = some node ∧
      execNodesWith exec g regs rest (mset acc node.id outs) = .ok out) := by
  simp only [execNodesWith] at hrun
  split at hrun
  · exact Or.inl hrun
  · rename_i node hsome
    split at hrun
    · exact Or.inr ⟨node, _, hsome, hrun⟩
    · exact Or.inr ⟨node, _, hsome, hrun⟩
    · exact Or.inr ⟨node, _, hsome, hrun⟩
    · split at hrun
      · cases hrun
      · exact Or.inr ⟨node, _, hsome, hrun⟩
    · exact Or.inr ⟨node, _, hsome, hrun⟩

theorem execNodesWith_cond_entry {exec : ExecFn} {g : Graph} {regs : RegMap}
    {n : Node}
    (hfind : mget? (buildNodeMap g.nodes) n.id = some n)
    (htype : n.ntype = .LoopCondition)
    (hnoin : ∀ e ∈ g.edges, e.to'.nodeId ≠ n.id) :
    ∀ ids acc out, execNodesWith exec g regs ids acc = .ok out →
      (n.id ∈ ids ∨ mget? acc n.id = some []) → mget? out n.id = some [] := by
  intro ids
  induction ids with
  | nil =>
    intro acc out hrun hin
    simp only [execNodesWith] at hrun
    cases hrun
    rcases hin with hin | hin
    · cases hin
    · exact hin
  | cons nodeId rest ih =>
    intro acc out hrun hin
    by_cases hid : nodeId = n.id
    · subst hid
      rw [execNodesWith_cons_cond hfind htype] at hrun
      rw [resolveInputs_no_incoming hnoin] at hrun
      exact ih _ out hrun (Or.inr (mget?_mset_self _ _ _))
    · rcases execNodesWith_cons_shape hrun with h | ⟨node, outs, hsome, h⟩
      · refine ih _ out h ?_
        rcases hin with hin | hin
        · rcases List.mem_cons.mp hin with h' | h'
          · exact absurd h'.symm hid
          · exact Or.inl h'
        · exact Or.inr hin
      · refine ih _ out h ?_
        rcases hin with hin | hin
        · rcases List.mem_cons.mp hin with h' | h'
          · exact absurd h'.symm hid
          · exact Or.inl h'
        · refine Or.inr ?_
          rw [mget?_mset_ne]
          · exact hin
          · rw [buildNodeMap_id hsome]; exact hid

theorem execNodesWith_srread_entry {exec : ExecFn} {g : Graph} {regs : RegMap}
    {n : Node}
    (hfind : mget? (buildNodeMap g.nodes) n.id = some n)
    (htype : n.ntype = .ShiftRegisterRead) :
    ∀ ids acc out, execNodesWith exec g regs ids acc = .ok out →
      (mget? out n.id = mget? acc n.id ∨
       mget? out n.id =
         some [("value", (mget? regs (jsGet n.data "register")).getD .undef)]) := by
  intro ids
  induction ids with
  | nil =>
    intro acc out hrun
    simp only [execNodesWith] at hrun
    cases hrun
    exact Or.inl rfl
  | cons nodeId rest ih =>
    intro acc out hrun
    by_cases hid : nodeId = n.id
    · subst hid
      rw [execNodesWith_cons_srread hfind htype] at hrun
      rcases ih _ out hrun with h | h
      · rw [mget?_mset_self] at h
        exact Or.inr h
      · exact Or.inr h
    · rcases execNodesWith_cons_shape hrun with h | ⟨node, outs, hsome, h⟩
      · exact ih _ out h
      · rcases ih _ out h with h' | h'
        · rw [mget?_mset_ne] at h'
          · exact Or.inl h'
          · rw [buildNodeMap_id hsome]; exact hid
        · exact Or.inr h'

theorem collectShouldContinue_noLC :
    ∀ (ns : List Node) (nodeOutputs : NodeOutputs) (sc : Value),
      (∀ m ∈ ns, m.ntype ≠ .LoopCondition) →
      ns.foldl
        (fun shouldContinue node =>
          if node.ntype = .LoopCondition then
            match mget? nodeOutputs node.id with
            | some outputs => jsGet outputs "continue"
            | none => shouldContinue
          else shouldContinue) sc = sc := by
  intro ns
  induction ns with
  | nil => intro _ _ _; rfl
  | cons hd tl ih =>
    intro nodeOutputs sc h
    simp only [List.foldl_cons, h hd (List.mem_cons_self _ _), if_false]
    exact ih _ _ (fun m hm => h m (List.mem_cons_of_mem _ hm))

/-- With a sole LoopCondition node whose recorded outputs are `tv`, the
condition scan yields `tv.continue`. -/
theorem collectShouldContinue_sole {g : Graph} {cond : Node} {nodeOutputs : NodeOutputs}
    {tv : TerminalValues}
    (hnd : (g.nodes.map Node.id).Nodup)
    (hmem : cond ∈ g.nodes)
    (hcondty : cond.ntype = .LoopCondition)
    (hsole : ∀ m ∈ g.nodes, m.ntype = .LoopCondition → m.id = cond.id)
    (hentry : mget? nodeOutputs cond.id = some tv) :
    collectShouldContinue g nodeOutputs = jsGet tv "continue" := by
  unfold collectShouldContinue
  have aux : ∀ (ns : List Node) (sc : Value), cond ∈ ns →
      (ns.map Node.id).Nodup →
      (∀ m ∈ ns, m.ntype = .LoopCondition → m.id = cond.id) →
      ns.foldl
        (fun shouldContinue node =>
          if node.ntype = .LoopCondition then
            match mget? nodeOutputs node.id with
            | some outputs => jsGet outputs "continue"
            | none => shouldContinue
          else shouldContinue) sc = jsGet tv "continue" := by
    intro ns
    induction ns with
    | nil => intro sc h; cases h
    | cons hd tl ih =>
      intro sc hc hnd2 hsole2
      simp only [List.map_cons, List.nodup_cons] at hnd2
      rcases List.mem_cons.mp hc with h1 | h1
      · subst h1
        simp only [List.foldl_cons, hcondty, if_true, hentry]
        refine collectShouldContinue_noLC tl nodeOutputs _ ?_
        intro m hm hmty
        have := hsole2 m (List.mem_cons_of_mem _ hm) hmty
        exact absurd (this ▸ List.mem_map_of_mem Node.id hm) (by
          intro hcmem
          obtain ⟨x, hx, hxe⟩ := List.mem_map.mp hcmem
          exact hnd2.1 (by rw [← hxe]; exact List.mem_map_of_mem Node.id hx))
      · have hhdty : hd.ntype ≠ .LoopCondition := by
          intro hty
          have hhid := hsole2 hd (List.mem_cons_self _ _) hty
          have hmemmap : cond.id ∈ tl.map Node.id := List.mem_map_of_mem Node.id h1
          rw [← hhid] at hmemmap
          exact hnd2.1 hmemmap
        simp only [List.foldl_cons, hhdty, if_false]
        exact ih _ h1 hnd2.2 (fun m hm => hsole2 m (List.mem_cons_of_mem _ hm))
  exact aux g.nodes _ hmem hnd hsole

theorem collectIndicatorOutputs_preserve {nodeOutputs : NodeOutputs}
    {i : String} :
    ∀ (ns : List Node) (acc : NodeOutputs), (∀ m ∈ ns, m.id ≠ i) →
      mget? (ns.foldl
        (fun result node =>
          if node.ntype = .Indicator then
            match mget? nodeOutputs node.id with
            | some values => mset result node.id values
            | none => result
          else result) acc) i = mget? acc i := by
  intro ns
  induction ns with
  | nil => intro acc _; rfl
  | cons hd tl ih =>
    intro acc h
    simp only [List.foldl_cons]
    rw [ih _ (fun m hm => h m (List.mem_cons_of_mem _ hm))]
    by_cases hty : hd.ntype = .Indicator
    · simp only [hty, if_true]
      cases hv : mget? nodeOutputs hd.id with
      | none => rfl
      | some values =>
        rw [mget?_mset_ne]
        exact h hd (List.mem_cons_self _ _)
    · simp only [hty, if_false]

theorem collectIndicatorOutputs_entry {g : Graph} {n : Node} {nodeOutputs : NodeOutputs}
    {tv : TerminalValues}
    (hmem : n ∈ g.nodes) (hnd : (g.nodes.map Node.id).Nodup)
    (htype : n.ntype = .Indicator)
    (hentry : mget? nodeOutputs n.id = some tv) :
    mget? (collectIndicatorOutputs g nodeOutputs) n.id = some tv := by
  unfold collectIndicatorOutputs
  have aux : ∀ (ns : List Node) (acc : NodeOutputs), n ∈ ns →
      (ns.map Node.id).Nodup →
      mget? (ns.foldl
        (fun result node =>
          if node.ntype = .Indicator then
            match mget? nodeOutputs node.id with
            | some values => mset result node.id values
            | none => result
          else result) acc) n.id = some tv := by
    intro ns
    induction ns with
    | nil => intro acc h; cases h
    | cons hd tl ih =>
      intro acc hc hnd2
      simp only [List.map_cons, List.nodup_cons] at hnd2
      rcases List.mem_cons.mp hc with h1 | h1
      · subst h1
        simp only [List.foldl_cons, htype, if_true, hentry]
        have hne : ∀ m ∈ tl, m.id ≠ n.id := by
          intro m hm hmeq
          exact hnd2.1 (by rw [← hmeq]; exact List.mem_map_of_mem Node.id hm)
        rw [collectIndicatorOutputs_preserve tl (mset acc n.id tv) hne]
        exact mget?_mset_self _ _ _
      · simp only [List.foldl_cons]
        exact ih _ h1 hnd2.2
  exact aux g.nodes [] hmem hnd

theorem loopsOKNodes_append (a b : List Node) :
    loopsOKNodes (a ++ b) = (loopsOKNodes a && loopsOKNodes b) := by
  induction a with
  | nil => simp [loopsOKNodes]
  | cons hd tl ih =>
    simp [loopsOKNodes, ih, Bool.and_assoc]

theorem convertSimpleNode_loopsOK {rfNode : RFNode}
    (h : (RF_TO_ENGINE_TYPE (rfNode.type.getD "")).getD .Constant ≠ .WhileLoop) :
    loopsOKNode (convertSimpleNode rfNode) = true := by
  unfold convertSimpleNode
  cases ht : (RF_TO_ENGINE_TYPE (rfNode.type.getD "")).getD .Constant <;>
    simp [loopsOKNode] <;> exact absurd ht h

theorem convertChildrenWith_loopsOK {build : RFNode → Option Graph}
    (hbuild : ∀ child g', build child = some g' → loopsOKGraph g' = true) :
    ∀ (children : List RFNode) (ns : List Node),
      convertChildrenWith build children = some ns → loopsOKNodes ns = true := by
  intro children
  induction children with
  | nil =>
    intro ns h
    simp only [convertChildrenWith] at h
    cases h
    rfl
  | cons child rest ih =>
    intro ns h
    simp only [convertChildrenWith] at h
    split at h
    · exact ih ns h
    · rename_i heq
      split at h
      · cases h
      · rename_i nested hnested
        split at h
        · cases h
        · rename_i others hothers
          cases h
          simp only [loopsOKNodes, Bool.and_eq_true]
          constructor
          · simpa [loopsOKNode] using hbuild child nested hnested
          · exact ih others hothers
    · rename_i t hnotW hsome
      split at h
      · cases h
      · rename_i others hothers
        cases h
        simp only [loopsOKNodes, Bool.and_eq_true]
        constructor
        · refine convertSimpleNode_loopsOK ?_
          rw [hsome]
          simp only [Option.getD_some]
          intro hc
          exact hnotW hc
        · exact ih others hothers

theorem buildChildGraph_loopsOK :
    ∀ (fuel : Nat) (loopNode : RFNode) (directChildren : List RFNode)
      (tunnelIn tunnelOut : List RFEdge)
      (allInternalEdges : List (String × List RFEdge))
      (allChildrenByParent : List (String × List RFNode))
      (allTunnelInEdges allTunnelOutEdges : List (String × List RFEdge))
      (g : Graph),
      buildChildGraph fuel loopNode directChildren tunnelIn tunnelOut
        allInternalEdges allChildrenByParent allTunnelInEdges allTunnelOutEdges =
        some g →
      loopsOKGraph g = true := by
  intro fuel
  induction fuel with
  | zero => intro _ _ _ _ _ _ _ _ g h; cases h
  | succ fuel ih =>
    intro loopNode directChildren tunnelIn tunnelOut allInternalEdges
      allChildrenByParent allTunnelInEdges allTunnelOutEdges g h
    simp only [buildChildGraph] at h
    split at h
    · cases h
    · rename_i convertedChildren hconv
      cases h
      have hb : ∀ child g',
          buildChildGraph fuel child ((mget? allChildrenByParent child.id).getD [])
            ((mget? allTunnelInEdges child.id).getD [])
            ((mget? allTunnelOutEdges child.id).getD [])
            allInternalEdges allChildrenByParent allTunnelInEdges
            allTunnelOutEdges = some g' →
          loopsOKGraph g' = true :=
        fun child g' hbx => ih child _ _ _ _ _ _ _ g' hbx
      have hchild := convertChildrenWith_loopsOK hb directChildren convertedChildren hconv
      simp [loopsOKGraph, loopsOKNodes_append, loopsOKNodes, loopsOKNode,
        counterNodes, hchild]

theorem convertTopNodes_loopsOK {fuel : Nat}
    {childrenByParent : List (String × List RFNode)} {part : EdgePartition} :
    ∀ (tops : List RFNode) (ns : List Node),
      convertTopNodes fuel childrenByParent part tops = some ns →
      loopsOKNodes ns = true := by
  intro tops
  induction tops with
  | nil =>
    intro ns h
    simp only [convertTopNodes] at h
    cases h
    rfl
  | cons rfNode rest ih =>
    intro ns h
    simp only [convertTopNodes] at h
    split at h
    · exact ih ns h
    · rename_i heq
      split at h
      · cases h
      · rename_i childGraph hcg
        split at h
        · cases h
        · rename_i others hothers
          cases h
          simp only [loopsOKNodes, Bool.and_eq_true]
          constructor
          · simpa [loopsOKNode] using
              buildChildGraph_loopsOK fuel rfNode _ _ _ _ _ _ _ childGraph hcg
          · exact ih others hothers
    · rename_i t hnotW hsome
      split at h
      · cases h
      · rename_i others hothers
        cases h
        simp only [loopsOKNodes, Bool.and_eq_true]
        constructor
        · refine convertSimpleNode_loopsOK ?_
          rw [hsome]
          simp only [Option.getD_some]
          intro hc
          exact hnotW hc
        · exact ih others hothers

/-- Every graph the converter produces satisfies `loopsOKGraph`: each
WhileLoop engine node, at any depth, carries a child graph. -/
theorem convertToEngineGraph_loopsOK {rfNodes : List RFNode} {rfEdges : List RFEdge}
    {g : Graph} (h : convertToEngineGraph rfNodes rfEdges = some g) :
    loopsOKGraph g = true := by
  unfold convertToEngineGraph at h
  simp only [] at h
  split at h
  · cases h
  · rename_i engineNodes hconv
    cases h
    simpa [loopsOKGraph] using convertTopNodes_loopsOK _ engineNodes hconv

theorem convertSimpleNode_ntype (rfNode : RFNode) :
    (convertSimpleNode rfNode).ntype =
      (RF_TO_ENGINE_TYPE (rfNode.type.getD "")).getD .Constant ∧
    (convertSimpleNode rfNode).childGraph = none := by
  unfold convertSimpleNode
  cases ht : (RF_TO_ENGINE_TYPE (rfNode.type.getD "")).getD .Constant <;>
    simp [Node.ntype, Node.childGraph]

theorem convertChildrenWith_maxIter {build : RFNode → Option Graph}
    {pool : List RFNode}
    (hbuild : ∀ child ∈ pool, ∀ g', build child = some g' →
      ∀ n, NodeIn n g' → n.ntype = .WhileLoop → maxIterFrom pool n) :
    ∀ (children : List RFNode), (∀ c ∈ children, c ∈ pool) →
      ∀ ns, convertChildrenWith build children = some ns →
      ∀ m ∈ ns, (m.ntype = .WhileLoop → maxIterFrom pool m) ∧
        (∀ g', m.childGraph = some g' →
          ∀ n, NodeIn n g' → n.ntype = .WhileLoop → maxIterFrom pool n) := by
  intro children
  induction children with
  | nil =>
    intro _ ns h m hm
    simp only [convertChildrenWith] at h
    cases h
    cases hm
  | cons child rest ih =>
    intro hsub ns h m hm
    have hrest : ∀ c ∈ rest, c ∈ pool :=
      fun c hc => hsub c (List.mem_cons_of_mem _ hc)
    have hchild : child ∈ pool := hsub child (List.mem_cons_self _ _)
    simp only [convertChildrenWith] at h
    split at h
    · exact ih hrest ns h m hm
    · rename_i heq
      split at h
      · cases h
      · rename_i nested hnested
        split at h
        · cases h
        · rename_i others hothers
          cases h
          rcases List.mem_cons.mp hm with h1 | h1
          · subst h1
            constructor
            · intro _
              refine ⟨child, hchild, rfl, ?_⟩
              simp [Node.data, jsGet, mget?]
            · intro g' hg'
              simp only [Node.childGraph] at hg'
              injection hg' with hg'
              subst hg'
              exact hbuild child hchild nested hnested
          · exact ih hrest others hothers m h1
    · rename_i t hnotW hsome
      split at h
      · cases h
      · rename_i others hothers
        cases h
        rcases List.mem_cons.mp hm with h1 | h1
        · subst h1
          have hsimple := convertSimpleNode_ntype child
          constructor
          · intro htype
            rw [hsimple.1, hsome] at htype
            simp only [Option.getD_some] at htype
            exact absurd htype hnotW
          · intro g' hg'
            rw [hsimple.2] at hg'
            cases hg'
        · exact ih hrest others hothers m h1

theorem buildChildGraph_maxIter {pool : List RFNode} :
    ∀ (fuel : Nat) (loopNode : RFNode) (directChildren : List RFNode)
      (tunnelIn tunnelOut : List RFEdge)
      (allInternalEdges : List (String × List RFEdge))
      (allChildrenByParent : List (String × List RFNode))
      (allTunnelInEdges allTunnelOutEdges : List (String × List RFEdge))
      (g : Graph),
      (∀ c ∈ directChildren, c ∈ pool) →
      (∀ k l, mget? allChildrenByParent k = some l → ∀ c ∈ l, c ∈ pool) →
      buildChildGraph fuel loopNode directChildren tunnelIn tunnelOut
        allInternalEdges allChildrenByParent allTunnelInEdges allTunnelOutEdges =
        some g →
      ∀ n, NodeIn n g → n.ntype = .WhileLoop → maxIterFrom pool n := by
  intro fuel
  induction fuel with
  | zero => intro _ _ _ _ _ _ _ _ g _ _ h; cases h
  | succ fuel ih =>
    intro loopNode directChildren tunnelIn tunnelOut allInternalEdges
      allChildrenByParent allTunnelInEdges allTunnelOutEdges g hsub hcbp h n hin htype
    simp only [buildChildGraph] at h
    split at h
    · cases h
    · rename_i convertedChildren hconv
      cases h
      have hbuild : ∀ child ∈ pool, ∀ g',
          buildChildGraph fuel child ((mget? allChildrenByParent child.id).getD [])
            ((mget? allTunnelInEdges child.id).getD [])
            ((mget? allTunnelOutEdges child.id).getD [])
            allInternalEdges allChildrenByParent allTunnelInEdges
            allTunnelOutEdges = some g' →
          ∀ n, NodeIn n g' → n.ntype = .WhileLoop → maxIterFrom pool n := by
        intro child _ g' hb
        refine ih child _ _ _ _ _ _ _ g' ?_ hcbp hb
        cases hc : mget? allChildrenByParent child.id with
        | none => simp
        | some l =>
          simp only [Option.getD_some]
          exact hcbp child.id l hc
      have hconv' := convertChildrenWith_maxIter hbuild directChildren hsub
        convertedChildren hconv
      cases hin with
      | here hn =>
        simp only [Graph.nodes] at hn
        rcases List.mem_append.mp hn with hn | hn
        · rcases List.mem_append.mp hn with hn | hn
          · rcases List.mem_append.mp hn with hn | hn
            · simp only [List.mem_singleton] at hn
              subst hn
              simp [Node.ntype] at htype
            · exact (hconv' n hn).1 htype
          · simp only [List.mem_singleton] at hn
            subst hn
            simp [Node.ntype] at htype
        · simp only [counterNodes, List.mem_cons, List.not_mem_nil, or_false] at hn
          rcases hn with hn | hn | hn | hn | hn | hn <;>
            (subst hn; simp [Node.ntype] at htype)
      | nested hm hcg hin' =>
        rename_i m g2
        simp only [Graph.nodes] at hm
        rcases List.mem_append.mp hm with hm | hm
        · rcases List.mem_append.mp hm with hm | hm
          · rcases List.mem_append.mp hm with hm | hm
            · simp only [List.mem_singleton] at hm
              subst hm
              simp [Node.childGraph] at hcg
            · exact (hconv' m hm).2 g2 hcg n hin' htype
          · simp only [List.mem_singleton] at hm
            subst hm
            simp [Node.childGraph] at hcg
        · simp only [counterNodes, List.mem_cons, List.not_mem_nil, or_false] at hm
          rcases hm with hm | hm | hm | hm | hm | hm <;>
            (subst hm; simp [Node.childGraph] at hcg)

theorem convertTopNodes_maxIter {fuel : Nat} {pool : List RFNode}
    {childrenByParent : List (String × List RFNode)} {part : EdgePartition}
    (hcbp : ∀ k l, mget? childrenByParent k = some l → ∀ c ∈ l, c ∈ pool) :
    ∀ (tops : List RFNode), (∀ c ∈ tops, c ∈ pool) →
      ∀ ns, convertTopNodes fuel childrenByParent part tops = some ns →
      ∀ m ∈ ns, (m.ntype = .WhileLoop → maxIterFrom pool m) ∧
        (∀ g', m.childGraph = some g' →
          ∀ n, NodeIn n g' → n.ntype = .WhileLoop → maxIterFrom pool n) := by
  intro tops
  induction tops with
  | nil =>
    intro _ ns h m hm
    simp only [convertTopNodes] at h
    cases h
    cases hm
  | cons rfNode rest ih =>
    intro hsub ns h m hm
    have hrest : ∀ c ∈ rest, c ∈ pool :=
      fun c hc => hsub c (List.mem_cons_of_mem _ hc)
    have hrf : rfNode ∈ pool := hsub rfNode (List.mem_cons_self _ _)
    simp only [convertTopNodes] at h
    split at h
    · exact ih hrest ns h m hm
    · rename_i heq
      split at h
      · cases h
      · rename_i childGraph hcg
        split at h
        · cases h
        · rename_i others hothers
          cases h
          rcases List.mem_cons.mp hm with h1 | h1
          · subst h1
            constructor
            · intro _
              refine ⟨rfNode, hrf, rfl, ?_⟩
              simp [Node.data, jsGet, mget?]
            · intro g' hg'
              simp only [Node.childGraph] at hg'
              injection hg' with hg'
              subst hg'
              refine buildChildGraph_maxIter fuel rfNode _ _ _ _ _ _ _
                childGraph ?_ hcbp hcg
              cases hc : mget? childrenByParent rfNode.id with
              | none => simp
              | some l =>
                simp only [Option.getD_some]
                exact hcbp rfNode.id l hc
          · exact ih hrest others hothers m h1
    · rename_i t hnotW hsome
      split at h
      · cases h
      · rename_i others hothers
        cases h
        rcases List.mem_cons.mp hm with h1 | h1
        · subst h1
          have hsimple := convertSimpleNode_ntype rfNode
          constructor
          · intro htype
            rw [hsimple.1, hsome] at htype
            simp only [Option.getD_some] at htype
            exact absurd htype hnotW
          · intro g' hg'
            rw [hsimple.2] at hg'
            cases hg'
        · exact ih hrest others hothers m h1

theorem childrenByParent_sub {rfNodes : List RFNode} :
    ∀ k l, mget? (rfNodes.foldl
      (fun m node =>
        if optStrTruthy node.parentNode then
          mset m (node.parentNode.getD "")
            (((mget? m (node.parentNode.getD "")).getD []) ++ [node])
        else m) []) k = some l → ∀ c ∈ l, c ∈ rfNodes := by
  have aux : ∀ (ns : List RFNode) (pool : List RFNode)
      (acc : List (String × List RFNode)),
      (∀ k l, mget? acc k = some l → ∀ c ∈ l, c ∈ pool) →
      (∀ n ∈ ns, n ∈ pool) →
      ∀ k l, mget? (ns.foldl
        (fun m node =>
          if optStrTruthy node.parentNode then
            mset m (node.parentNode.getD "")
              (((mget? m (node.parentNode.getD "")).getD []) ++ [node])
          else m) acc) k = some l → ∀ c ∈ l, c ∈ pool := by
    intro ns
    induction ns with
    | nil => intro pool acc hacc _ k l h; exact hacc k l h
    | cons hd tl ih =>
      intro pool acc hacc hsub k l h
      simp only [List.foldl_cons] at h
      by_cases hp : optStrTruthy hd.parentNode = true
      · rw [if_pos hp] at h
        refine ih pool _ ?_ (fun n hn => hsub n (List.mem_cons_of_mem _ hn)) k l h
        intro k' l' h' c hc
        rw [mget?_mset] at h'
        by_cases hk : hd.parentNode.getD "" = k'
        · simp only [hk, if_pos rfl] at h'
          injection h' with h'
          subst h'
          rcases List.mem_append.mp hc with hc | hc
          · cases hcold : mget? acc k' with
            | none => rw [hcold] at hc; cases hc
            | some old =>
              rw [hcold] at hc
              exact hacc k' old hcold c hc
          · simp only [List.mem_singleton] at hc
            subst hc
            exact hsub c (List.mem_cons_self _ _)
        · rw [if_neg hk] at h'
          exact hacc k' l' h' c hc
      · rw [if_neg hp] at h
        exact ih pool acc hacc (fun n hn => hsub n (List.mem_cons_of_mem _ hn)) k l h
  intro k l h
  exact aux rfNodes rfNodes [] (fun k l h => by simp [mget?] at h)
    (fun n hn => hn) k l h

/-- Through lowering, every WhileLoop engine node's `maxIterations` is the
nullish-coalescing of the same-id diagram node's entry with 1000. -/
theorem convertToEngineGraph_maxIter {rfNodes : List RFNode} {rfEdges : List RFEdge}
    {g : Graph} (h : convertToEngineGraph rfNodes rfEdges = some g) :
    ∀ n, NodeIn n g → n.ntype = .WhileLoop → maxIterFrom rfNodes n := by
  unfold convertToEngineGraph at h
  simp only [] at h
  split at h
  · cases h
  · rename_i engineNodes hconv
    cases h
    intro n hin htype
    have htop := convertTopNodes_maxIter childrenByParent_sub
      (rfNodes.filter (fun n => ! optStrTruthy n.parentNode))
      (fun c hc => List.mem_of_mem_filter hc) engineNodes hconv
    cases hin with
    | here hn =>
      simp only [Graph.nodes] at hn
      exact (htop n hn).1 htype
    | nested hm hcg hin' =>
      rename_i m g2
      simp only [Graph.nodes] at hm
      exact (htop m hm).2 g2 hcg n hin' htype

theorem mget?_eq_none_iff {κ α : Type} [DecidableEq κ] {m : List (κ × α)} {k : κ} :
    mget? m k = none ↔ k ∉ m.map Prod.fst := by
  induction m with
  | nil => simp [mget?]
  | cons hd tl ih =>
    obtain ⟨k0, v0⟩ := hd
    by_cases h0 : k0 = k
    · subst h0
      constructor
      · intro h; simp [mget?] at h
      · intro h; exact absurd (by simp) h
    · constructor
      · intro h hmem
        simp only [mget?, if_neg h0] at h
        simp only [List.map_cons, List.mem_cons] at hmem
        rcases hmem with he | hmem
        · exact h0 he.symm
        · exact (ih.mp h) hmem
      · intro hmem
        simp only [mget?, if_neg h0]
        refine ih.mpr ?_
        intro hc
        exact hmem (by simp [hc])

theorem mset_map_fst_none {κ α : Type} [DecidableEq κ] {m : List (κ × α)} {k : κ}
    (h : mget? m k = none) (v : α) :
    (mset m k v).map Prod.fst = m.map Prod.fst ++ [k] := by
  induction m with
  | nil => simp [mset]
  | cons hd tl ih =>
    obtain ⟨k0, v0⟩ := hd
    by_cases h0 : k0 = k
    · subst h0; simp [mget?] at h
    · simp only [mget?, if_neg h0] at h
      simp [mset, h0, ih h]

theorem mset_map_fst_some {κ α : Type} [DecidableEq κ] {m : List (κ × α)} {k : κ}
    {w : α} (h : mget? m k = some w) (v : α) :
    (mset m k v).map Prod.fst = m.map Prod.fst := by
  induction m with
  | nil => simp [mget?] at h
  | cons hd tl ih =>
    obtain ⟨k0, v0⟩ := hd
    by_cases h0 : k0 = k
    · subst h0; simp [mset]
    · simp only [mget?, if_neg h0] at h
      simp [mset, h0, ih h]

theorem mset_keys_nodup {κ α : Type} [DecidableEq κ] {m : List (κ × α)} {k : κ}
    (hnd : (m.map Prod.fst).Nodup) (v : α) :
    ((mset m k v).map Prod.fst).Nodup := by
  cases h : mget? m k with
  | none =>
    rw [mset_map_fst_none h v]
    refine List.Nodup.append hnd (List.nodup_singleton k) ?_
    intro a ha hb
    simp only [List.mem_singleton] at hb
    subst hb
    exact (mget?_eq_none_iff.mp h) ha
  | some w =>
    rw [mset_map_fst_some h v]
    exact hnd

theorem collectIndicatorOutputs_keys_nodup (g : Graph) (nodeOutputs : NodeOutputs) :
    ((collectIndicatorOutputs g nodeOutputs).map Prod.fst).Nodup := by
  unfold collectIndicatorOutputs
  have aux : ∀ (ns : List Node) (acc : NodeOutputs), (acc.map Prod.fst).Nodup →
      ((ns.foldl
        (fun result node =>
          if node.ntype = .Indicator then
            match mget? nodeOutputs node.id with
            | some values => mset result node.id values
            | none => result
          else result) acc).map Prod.fst).Nodup := by
    intro ns
    induction ns with
    | nil => intro acc h; exact h
    | cons hd tl ih =>
      intro acc h
      simp only [List.foldl_cons]
      refine ih _ ?_
      by_cases hty : hd.ntype = .Indicator
      · simp only [hty, if_true]
        cases hv : mget? nodeOutputs hd.id with
        | none => exact h
        | some values => exact mset_keys_nodup h values
      · simp only [hty, if_false]
        exact h
  exact aux g.nodes [] (by simp)

theorem narrowUpdates_absent :
    ∀ (outs : NodeOutputs) (acc : List (String × Value)) (i : String),
      mget? outs i = none →
      mget? (outs.foldl
        (fun updates kv =>
          if jsGet kv.2 "value" ≠ Value.undef then
            mset updates kv.1 (jsGet kv.2 "value")
          else updates) acc) i = mget? acc i := by
  intro outs
  induction outs with
  | nil => intro acc i _; rfl
  | cons hd tl ih =>
    intro acc i h
    obtain ⟨k0, tv0⟩ := hd
    by_cases h0 : k0 = i
    · subst h0; simp [mget?] at h
    · simp only [mget?, if_neg h0] at h
      simp only [List.foldl_cons]
      by_cases hv : jsGet tv0 "value" ≠ Value.undef
      · rw [if_pos hv, ih _ i h, mget?_mset_ne _ _ h0]
      · rw [if_neg hv]
        exact ih _ i h

theorem narrowUpdates_present :
    ∀ (outs : NodeOutputs) (acc : List (String × Value)) (i : String)
      (tv : TerminalValues), (outs.map Prod.fst).Nodup → mget? outs i = some tv →
      mget? (outs.foldl
        (fun updates kv =>
          if jsGet kv.2 "value" ≠ Value.undef then
            mset updates kv.1 (jsGet kv.2 "value")
          else updates) acc) i =
      (if jsGet tv "value" ≠ Value.undef then some (jsGet tv "value")
       else mget? acc i) := by
  intro outs
  induction outs with
  | nil => intro acc i tv _ h; simp [mget?] at h
  | cons hd tl ih =>
    intro acc i tv hnd h
    obtain ⟨k0, tv0⟩ := hd
    simp only [List.map_cons, List.nodup_cons] at hnd
    by_cases h0 : k0 = i
    · have habsent : mget? tl i = none := by
        rw [mget?_eq_none_iff]
        rw [← h0]
        exact hnd.1
      simp only [mget?, if_pos h0] at h
      injection h with h
      simp only [List.foldl_cons]
      by_cases hv : jsGet tv0 "value" ≠ Value.undef
      · rw [if_pos hv, narrowUpdates_absent tl _ i habsent, h0,
          mget?_mset_self, h]
        rw [h] at hv
        rw [if_pos hv]
      · rw [if_neg hv, narrowUpdates_absent tl _ i habsent]
        rw [h] at hv
        rw [if_neg hv]
    · simp only [mget?, if_neg h0] at h
      simp only [List.foldl_cons]
      by_cases hv : jsGet tv0 "value" ≠ Value.undef
      · rw [if_pos hv, ih _ i tv hnd.2 h]
        by_cases hvv : jsGet tv "value" ≠ Value.undef
        · rw [if_pos hvv, if_pos hvv]
        · rw [if_neg hvv, if_neg hvv, mget?_mset_ne _ _ h0]
      · rw [if_neg hv]
        exact ih _ i tv hnd.2 h

/-- Characterization of the bridge narrowing: an id is present in the
narrowed map exactly when its Indicator entry has a non-`undefined`
"value" terminal, and then it carries that raw value (numeric or not). -/
theorem narrowUpdates_get {outs : NodeOutputs} (hnd : (outs.map Prod.fst).Nodup)
    (i : String) :
    mget? (narrowUpdates outs) i =
      match mget? outs i with
      | some tv =>
        if jsGet tv "value" ≠ Value.undef then some (jsGet tv "value") else none
      | none => none := by
  unfold narrowUpdates
  cases h : mget? outs i with
  | none => rw [narrowUpdates_absent outs [] i h]; rfl
  | some tv =>
    rw [narrowUpdates_present outs [] i tv hnd h]
    rfl

theorem jsIndexOf_mem : ∀ (l : List String) (y : String), y ∈ l →
    jsIndexOf l y = some (l.indexOf y) := by
  intro l
  induction l with
  | nil => intro y h; cases h
  | cons x rest ih =>
    intro y h
    by_cases hx : x = y
    · subst hx
      simp [jsIndexOf, List.indexOf_cons_self]
    · have hy : y ∈ rest := by
        rcases List.mem_cons.mp h with h' | h'
        · exact absurd h'.symm hx
        · exact h'
      rw [List.indexOf_cons_ne _ (by simpa using hx)]
      simp [jsIndexOf, hx, ih y hy]

theorem jsIndexOf_not_mem : ∀ (l : List String) (y : String), y ∉ l →
    jsIndexOf l y = none := by
  intro l
  induction l with
  | nil => intro y _; rfl
  | cons x rest ih =>
    intro y h
    have hx : x ≠ y := fun hc => h (hc ▸ List.mem_cons_self _ _)
    have hy : y ∉ rest := fun hc => h (List.mem_cons_of_mem _ hc)
    simp [jsIndexOf, hx, ih y hy]

theorem contains_iff_mem (l : List String) (a : String) :
    l.contains a = true ↔ a ∈ l := by
  induction l with
  | nil => simp
  | cons x rest ih => simp

/-- `findRegisterForOutput` coincides with the spec's resolution contract
on every declared output terminal name. -/
theorem findRegisterForOutput_eq_spec (node : Node) (outputName : String)
    (hmem : outputName ∈ node.outputs.map Prod.fst) :
    findRegisterForOutput node outputName = registerForOutputSpec node outputName := by
  unfold findRegisterForOutput registerForOutputSpec
  simp only []
  by_cases h1 : outputName ∈ node.inputs.map Prod.fst
  · rw [if_pos ((contains_iff_mem _ _).mpr h1), if_pos h1]
  · rw [if_neg (by
      intro hc
      exact h1 ((contains_iff_mem _ _).mp hc)), if_neg h1]
    by_cases h2 : (node.inputs.map Prod.fst).length = 1 ∧
        (node.outputs.map Prod.fst).length = 1
    · rw [if_pos h2, if_pos h2]
    · rw [if_neg h2, if_neg h2]
      rw [jsIndexOf_mem _ _ hmem]
      split
      · rename_i i hi
        injection hi with hi
        subst hi
        cases hget : (node.inputs.map Prod.fst).get?
            (List.indexOf outputName (node.outputs.map Prod.fst)) with
        | none =>
          have hge : ¬ List.indexOf outputName (node.outputs.map Prod.fst) <
              (node.inputs.map Prod.fst).length := by
            rw [List.get?_eq_none] at hget
            omega
          rw [if_neg hge]
        | some nm =>
          have hlt : List.indexOf outputName (node.outputs.map Prod.fst) <
              (node.inputs.map Prod.fst).length := by
            by_contra hc
            rw [List.get?_eq_none.mpr (by omega)] at hget
            cases hget
          rw [if_pos hlt]
          simp only [List.getD_eq_getD_get?, hget, Option.getD_some]
      · rename_i hi
        cases hi

theorem loopGoWith_step {exec : ExecFn} {g : Graph} {cap : Value} {fuel iterations : Nat}
    {regs : RegMap} {iter : IterationResult}
    (hguard : jsLt (.num iterations) cap = true)
    (hiter : execIterWith exec g regs = .ok iter) :
    loopGoWith exec g cap (fuel + 1) iterations regs =
      (if jsTruthy iter.shouldContinue then
        loopGoWith exec g cap fuel (iterations + 1)
          (commitWrites iter.registerWrites regs)
      else .ok (commitWrites iter.registerWrites regs)) := by
  simp only [loopGoWith, hguard, if_true, hiter]

theorem executeGraph_inv {g : Graph} {r : ExecutionResult}
    (h : executeGraph g = .ok r) :
    ∃ nodeOutputs,
      execTopLevelWith executeWhileLoop g (topologicalSort g) [] = .ok nodeOutputs ∧
      r.outputs = collectIndicatorOutputs g nodeOutputs := by
  unfold executeGraph at h
  split at h
  · cases h
  · rename_i nodeOutputs hrun
    cases h
    exact ⟨nodeOutputs, hrun, rfl⟩

theorem executeNode_indicator {n : Node} (h : n.ntype = .Indicator)
    (inputs : TerminalValues) : executeNode n inputs = inputs := by
  unfold executeNode
  rw [h]

theorem iterFuel_pos {cap : Value} (h : jsLt (.num 0) cap = true) :
    1 ≤ iterFuel cap := by
  unfold iterFuel
  cases cap with
  | num n =>
    simp [jsLt, jsToNumber] at h
    simp [jsToNumber]
    omega
  | nan => simp [jsLt, jsToNumber] at h
  | bool b =>
    cases b with
    | false => simp [jsLt, jsToNumber] at h
    | true => simp [jsToNumber]
  | str s =>
    simp only [jsLt, jsToNumber] at h
    cases hn : (if s.trim = "" then Value.num 0
        else match s.trim.toInt? with
          | some n => Value.num n
          | none => Value.nan) with
    | num y =>
      rw [hn] at h
      simp at h
      simp [jsToNumber, hn]
      omega
    | nan => rw [hn] at h; simp at h
    | bool b => rw [hn] at h; simp at h
    | str t => rw [hn] at h; simp at h
    | undef => rw [hn] at h; simp at h
  | undef => simp [jsLt, jsToNumber] at h

theorem execIterWith_inv {exec : ExecFn} {g : Graph} {regs : RegMap}
    {iter : IterationResult} (h : execIterWith exec g regs = .ok iter) :
    ∃ outs, execNodesWith exec g regs (topologicalSort g) [] = .ok outs ∧
      iter = ⟨collectShouldContinue g outs, collectRegisterWrites g outs⟩ := by
  unfold execIterWith at h
  split at h
  · cases h
  · rename_i outs hrun
    injection h with h
    exact ⟨outs, hrun, h.symm⟩

theorem executeWhileLoop_eq_some {node : Node} {g : Graph}
    (hcg : node.childGraph = some g) (inputs : TerminalValues) :
    executeWhileLoop node inputs =
      match loopGoWith executeWhileLoop g
          (jsNullish (jsGet node.data "maxIterations") (.num 1000))
          (iterFuel (jsNullish (jsGet node.data "maxIterations") (.num 1000))) 0
          (seedChildRegisters g (initShiftRegisters inputs)) with
      | .error e => .error e
      | .ok finalRegs => .ok (loopOutputs node finalRegs) := by
  rw [executeWhileLoop_eq, hcg]

/-- C5 (confirmed): a graph with an outer WhileLoop allowing 3 iterations
via its LessThan/LoopCondition subcircuit, containing a nested inner
WhileLoop of 4 iterations per outer pass whose body increments its
register by 1 and writes back to the outer register, executed from an
outer seed of 0, yields 12 at the downstream Indicator. -/
theorem claim_C5 :
    (executeGraph gNested).map (fun r => mget? r.outputs "display") =
      .ok (some [("value", Value.num 12)]) := by decide

/-- C6 (confirmed): a WhileLoop stops as soon as the cap fails the guard
(first conjunct), or as soon as the LoopCondition's input is falsy after a
pass commit (second conjunct), whichever comes first; in particular, with
an always-true condition, cap 5 and a body incrementing the "init"
register from seed 0, the final "result" output is 5 — the cap wins and
exactly 5 passes run. -/
theorem claim_C6 :
    (∀ (exec : ExecFn) (g : Graph) (cap : Value) (fuel iterations : Nat)
        (regs : RegMap), jsLt (.num iterations) cap = false →
        loopGoWith exec g cap fuel iterations regs = .ok regs) ∧
    (∀ (exec : ExecFn) (g : Graph) (cap : Value) (fuel iterations : Nat)
        (regs : RegMap) (iter : IterationResult),
        jsLt (.num iterations) cap = true →
        execIterWith exec g regs = .ok iter →
        jsTruthy iter.shouldContinue = false →
        loopGoWith exec g cap (fuel + 1) iterations regs =
          .ok (commitWrites iter.registerWrites regs)) ∧
    (executeGraph gCap).map (fun r => mget? r.outputs "display") =
      .ok (some [("value", Value.num 5)]) := by
  refine ⟨?_, ?_, by decide⟩
  · intro exec g cap fuel iterations regs h
    cases fuel with
    | zero => rfl
    | succ fuel => simp [loopGoWith, h]
  · intro exec g cap fuel iterations regs iter hg hi hsc
    rw [loopGoWith_step hg hi]
    simp [hsc]

/-- C6 witness: the cap-exit conjunct applied at a concrete input where
the guard has just failed (iterations 5, cap 5). -/
theorem claim_C6_witness :
    loopGoWith executeWhileLoop capChild (Value.num 5) 1 5
      [(Value.str "init", Value.num 5)] = .ok [(Value.str "init", Value.num 5)] :=
  claim_C6.1 executeWhileLoop capChild (Value.num 5) 1 5
    [(Value.str "init", Value.num 5)] (by decide)

/-- C3 counterexample: the missing-child-graph error is not raised by
lowering before execution — on `gBad` the runner evaluates the Constant
node "c" (first in topological order) and only then fails when it reaches
the WhileLoop node "w". -/
theorem claim_C3_counterexample :
    topologicalSort gBad = ["c", "w"] ∧
    execTopLevelWith executeWhileLoop gBad ["c"] [] =
      .ok [("c", [("value", Value.num 5)])] ∧
    executeGraph gBad = .error "WhileLoop node \"w\" has no child graph" := by
  decide

/-- C3 (corrected): processing a WhileLoop node without a materialized
child graph is a fatal error whose message names the offending node —
raised by the runner (`executeWhileLoop`) when that node is evaluated, not
by lowering. -/
theorem claim_C3 (node : Node) (inputs : TerminalValues)
    (hcg : node.childGraph = none) :
    executeWhileLoop node inputs =
      .error ("WhileLoop node \"" ++ node.id ++ "\" has no child graph") := by
  rw [executeWhileLoop_eq, hcg]

/-- C3 witness: the fatal error at the concrete child-less loop node. -/
theorem claim_C3_witness :
    executeWhileLoop badLoop [] = .error "WhileLoop node \"w\" has no child graph" := by
  rw [claim_C3 badLoop [] rfl]
  decide

/-- C9 (confirmed): every graph produced by the converter satisfies
`loopsOKGraph` — every WhileLoop engine node at any depth carries a child
graph — so the runner's missing-child-graph branch is unreachable and
execution always completes without error. -/
theorem claim_C9 {rfNodes : List RFNode} {rfEdges : List RFEdge} {g : Graph}
    (h : convertToEngineGraph rfNodes rfEdges = some g) :
    loopsOKGraph g = true ∧ ∃ r, executeGraph g = .ok r :=
  ⟨convertToEngineGraph_loopsOK h, executeGraph_ok (convertToEngineGraph_loopsOK h)⟩

/-- C9 witness: the loop-container diagram `c9wNodes`/`c9wEdges` lowers to
a graph that executes without error. -/
theorem claim_C9_witness :
    loopsOKGraph c9wGraph = true ∧ ∃ r, executeGraph c9wGraph = .ok r :=
  @claim_C9 c9wNodes c9wEdges c9wGraph rfl

/-- C8 (confirmed, generalized beyond acyclicity): in any well-formed
graph (loops all carry child graphs, node ids distinct), an Indicator node
with no incoming edge does not cause execution to raise — `executeGraph`
completes, the Indicator's id is a key of the result's outputs, and its
"value" terminal is absent/undefined rather than an error. -/
theorem claim_C8 {g : Graph} {n : Node}
    (hok : loopsOKGraph g = true) (hnd : (g.nodes.map Node.id).Nodup)
    (hmem : n ∈ g.nodes) (htype : n.ntype = .Indicator)
    (hnoin : ∀ e ∈ g.edges, e.to'.nodeId ≠ n.id) :
    ∃ r tv, executeGraph g = .ok r ∧ mget? r.outputs n.id = some tv ∧
      jsGet tv "value" = Value.undef := by
  obtain ⟨r, hr⟩ := executeGraph_ok hok
  obtain ⟨outs, hrun, houts⟩ := executeGraph_inv hr
  have hfind := buildNodeMap_nodup hmem hnd
  have htyne : n.ntype ≠ .WhileLoop := by rw [htype]; intro hc; cases hc
  have hconst : ∀ acc, executeNode n (resolveInputs n g acc) = [] := by
    intro acc
    rw [resolveInputs_no_incoming hnoin, executeNode_indicator htype]
  have hsort := topologicalSort_mem hmem hnoin
  have hentry := execTopLevelWith_entry hfind htyne hconst _ [] outs hrun (Or.inl hsort)
  refine ⟨r, [], hr, ?_, rfl⟩
  rw [houts]
  exact collectIndicatorOutputs_entry hmem hnd htype hentry

/-- C8 witness: a lone disconnected Indicator. -/
theorem claim_C8_witness :
    ∃ r tv, executeGraph c8wGraph = .ok r ∧
      mget? r.outputs (sampleInd "lone").id = some tv ∧
      jsGet tv "value" = Value.undef :=
  @claim_C8 c8wGraph (sampleInd "lone") rfl (by decide)
    (List.mem_cons_self _ _) rfl (fun e he => absurd he (by intro hc; cases hc))

/-- C10 (confirmed): a child graph whose sole LoopCondition node has no
incoming edge makes the loop stop after exactly one pass (cap permitting):
the pass records empty outputs for the condition node, the scan reads its
"continue" property as `undefined`, which is falsy — the opposite of the
always-true default used when no LoopCondition node exists. -/
theorem claim_C10 {node : Node} {g : Graph} {cond : Node} (inputs : TerminalValues)
    (hcg : node.childGraph = some g)
    (hok : loopsOKGraph g = true)
    (hnd : (g.nodes.map Node.id).Nodup)
    (hcond : cond ∈ g.nodes) (hcondty : cond.ntype = .LoopCondition)
    (hsole : ∀ m ∈ g.nodes, m.ntype = .LoopCondition → m.id = cond.id)
    (hnoin : ∀ e ∈ g.edges, e.to'.nodeId ≠ cond.id)
    (hcap : jsLt (.num 0)
      (jsNullish (jsGet node.data "maxIterations") (.num 1000)) = true) :
    ∃ iter, executeChildGraphIteration g
        (seedChildRegisters g (initShiftRegisters inputs)) = .ok iter ∧
      iter.shouldContinue = Value.undef ∧
      executeWhileLoop node inputs =
        .ok (loopOutputs node (commitWrites iter.registerWrites
          (seedChildRegisters g (initShiftRegisters inputs)))) := by
  have hrec : ∀ n ∈ g.nodes, n.ntype = .WhileLoop → ∀ inp,
      ∃ o, executeWhileLoop n inp = .ok o :=
    fun n hn ht inp => executeWhileLoop_ok n ht (loopsOKGraph_mem hok hn) inp
  obtain ⟨iter, hiter⟩ := execIterWith_ok hrec
    (seedChildRegisters g (initShiftRegisters inputs))
  obtain ⟨outs, hrun, hiter_eq⟩ := execIterWith_inv hiter
  have hfind := buildNodeMap_nodup hcond hnd
  have hsort := topologicalSort_mem hcond hnoin
  have hentry := execNodesWith_cond_entry hfind hcondty hnoin _ [] outs hrun
    (Or.inl hsort)
  have hsc : iter.shouldContinue = Value.undef := by
    rw [hiter_eq]
    show collectShouldContinue g outs = Value.undef
    rw [collectShouldContinue_sole hnd hcond hcondty hsole hentry]
    rfl
  refine ⟨iter, hiter, hsc, ?_⟩
  rw [executeWhileLoop_eq_some hcg]
  obtain ⟨f, hf⟩ : ∃ f, iterFuel
      (jsNullish (jsGet node.data "maxIterations") (.num 1000)) = f + 1 :=
    ⟨iterFuel (jsNullish (jsGet node.data "maxIterations") (.num 1000)) - 1, by
      have := iterFuel_pos hcap
      omega⟩
  rw [hf]
  have hiter' : execIterWith executeWhileLoop g
      (seedChildRegisters g (initShiftRegisters inputs)) = .ok iter := hiter
  rw [loopGoWith_step hcap hiter']
  rw [hsc]
  simp [jsTruthy]

/-- C10 witness: a loop over a child graph holding only an unwired
LoopCondition runs exactly one pass. -/
theorem claim_C10_witness :
    ∃ iter, executeChildGraphIteration c10Child
        (seedChildRegisters c10Child (initShiftRegisters [("init", Value.num 7)])) =
        .ok iter ∧
      iter.shouldContinue = Value.undef ∧
      executeWhileLoop c10Node [("init", Value.num 7)] =
        .ok (loopOutputs c10Node (commitWrites iter.registerWrites
          (seedChildRegisters c10Child (initShiftRegisters [("init", Value.num 7)])))) := by
  refine @claim_C10 c10Node c10Child (sampleCond "cnd") [("init", Value.num 7)]
    rfl rfl (by decide) (List.mem_cons_self _ _) rfl ?_ ?_ (by decide)
  · intro m hm _
    rcases List.mem_singleton.mp hm with rfl
    rfl
  · intro e he
    cases he

/-- C4 (confirmed): (i) during one topological pass, every
ShiftRegisterRead's recorded output is the pre-pass register value (reads
come from the immutable pre-pass mapping, never from writes of the same
pass); (ii) the loop commits all collected writes to the register mapping
atomically only after the pass completes, before testing the condition. -/
theorem claim_C4 :
    (∀ (g : Graph) (regs : RegMap) (ids : List String) (acc out : NodeOutputs)
        (n : Node),
        mget? (buildNodeMap g.nodes) n.id = some n →
        n.ntype = .ShiftRegisterRead →
        execNodesWith executeWhileLoop g regs ids acc = .ok out →
        (mget? out n.id = mget? acc n.id ∨
         mget? out n.id =
           some [("value", (mget? regs (jsGet n.data "register")).getD .undef)])) ∧
    (∀ (g : Graph) (cap : Value) (fuel iterations : Nat) (regs : RegMap)
        (iter : IterationResult),
        jsLt (.num iterations) cap = true →
        executeChildGraphIteration g regs = .ok iter →
        loopGoWith executeWhileLoop g cap (fuel + 1) iterations regs =
          (if jsTruthy iter.shouldContinue then
            loopGoWith executeWhileLoop g cap fuel (iterations + 1)
              (commitWrites iter.registerWrites regs)
          else .ok (commitWrites iter.registerWrites regs))) :=
  ⟨fun _ _ ids acc out _ hfind htype hrun =>
    execNodesWith_srread_entry hfind htype ids acc out hrun,
   fun _ _ _ _ _ _ hg hi => loopGoWith_step hg hi⟩

/-- C4 witness: one pass over the cap-precedence child graph from
registers seeding "init" with 0 — the ShiftRegisterRead's recorded output
is the pre-pass value 0 even though the same pass writes 1. -/
theorem claim_C4_witness :
    (execNodesWith executeWhileLoop capChild c4wRegs (topologicalSort capChild) [] =
      .ok c4wOut) ∧
    (mget? c4wOut "sr-read" = mget? ([] : NodeOutputs) "sr-read" ∨
     mget? c4wOut "sr-read" =
       some [("value",
         (mget? c4wRegs (jsGet (sampleSrRead "sr-read" "init").data "register")).getD
           .undef)]) :=
  ⟨rfl, claim_C4.1 capChild c4wRegs (topologicalSort capChild) [] c4wOut
    (sampleSrRead "sr-read" "init") rfl rfl rfl⟩

/-- C7 (confirmed): for every declared output terminal name, the register
populating that output follows the spec's precedence: same-name input;
else the sole input when exactly one input and one output exist; else the
input at the output's positional index; else the output's own name. -/
theorem claim_C7 (node : Node) (outputName : String)
    (hmem : outputName ∈ node.outputs.map Prod.fst) :
    findRegisterForOutput node outputName = registerForOutputSpec node outputName :=
  findRegisterForOutput_eq_spec node outputName hmem

/-- C7 witness: a node with two inputs and three outputs resolves output
"q" positionally to input "b". -/
theorem claim_C7_witness :
    findRegisterForOutput c7wNode "q" = registerForOutputSpec c7wNode "q" ∧
    findRegisterForOutput c7wNode "q" = "b" :=
  ⟨claim_C7 c7wNode "q" (by decide), by decide⟩

theorem runDiagram_eq {nodes : List RFNode} {edges : List RFEdge} {graph : Graph}
    (hconv : convertToEngineGraph nodes edges = some graph) :
    runDiagram nodes edges =
      some (match executeGraph graph with
        | .error e => .error e
        | .ok result => .ok (narrowUpdates result.outputs)) := by
  unfold runDiagram
  rw [hconv]

/-- C1 counterexample: a diagram wiring a boolean-valued control to an
indicator — `runDiagram` returns the mapping with the boolean entry
included, while the claim says a non-numeric value is omitted. -/
theorem claim_C1_counterexample :
    runDiagram [rfCtrlTrue, rfIndJs] [rfWireCI] =
      some (.ok [("ind", Value.bool true)]) := by decide

/-- C1 (corrected): the Bridge narrows the Indicator outputs to a flat
mapping omitting exactly the entries whose "value" terminal is
absent/`undefined`; a defined non-numeric value (boolean, string, NaN) is
included unchanged — the `as number` cast performs no runtime check. -/
theorem claim_C1 {nodes : List RFNode} {edges : List RFEdge} {graph : Graph}
    {result : ExecutionResult}
    (hconv : convertToEngineGraph nodes edges = some graph)
    (hrun : executeGraph graph = .ok result) :
    runDiagram nodes edges = some (.ok (narrowUpdates result.outputs)) ∧
    ∀ nodeId, mget? (narrowUpdates result.outputs) nodeId =
      match mget? result.outputs nodeId with
      | some terminals =>
        if jsGet terminals "value" ≠ Value.undef then
          some (jsGet terminals "value")
        else none
      | none => none := by
  constructor
  · rw [runDiagram_eq hconv, hrun]
  · intro nodeId
    obtain ⟨outs, hrunTop, houts⟩ := executeGraph_inv hrun
    refine narrowUpdates_get ?_ nodeId
    rw [houts]
    exact collectIndicatorOutputs_keys_nodup graph outs

/-- C1 witness: the boolean-control diagram instantiating the corrected
narrowing contract at node id "ind". -/
theorem claim_C1_witness :
    (runDiagram [rfCtrlTrue, rfIndJs] [rfWireCI] =
      some (.ok (narrowUpdates c1wResult.outputs))) ∧
    mget? (narrowUpdates c1wResult.outputs) "ind" =
      (match mget? c1wResult.outputs "ind" with
       | some terminals =>
         if jsGet terminals "value" ≠ Value.undef then
           some (jsGet terminals "value")
         else none
       | none => none) :=
  ⟨(@claim_C1 [rfCtrlTrue, rfIndJs] [rfWireCI] c1wGraph c1wResult rfl rfl).1,
   (@claim_C1 [rfCtrlTrue, rfIndJs] [rfWireCI] c1wGraph c1wResult rfl rfl).2 "ind"⟩

/-- C2 counterexample: a loop container whose `maxIterations` is the
string "many" lowers to an engine node still carrying the string — the
nullish-coalescing default does not replace a non-numeric value by 1000. -/
theorem claim_C2_counterexample :
    (convertToEngineGraph [rfLoopStr] []).map
        (fun g => g.nodes.map (fun n => jsGet n.data "maxIterations")) =
      some [Value.str "many"] ∧
    jsNullish (Value.str "many") (Value.num 1000) = Value.str "many" := by decide

/-- C2 (corrected): for every WhileLoop engine node at any depth produced
by lowering, the `maxIterations` payload is the nullish-coalescing of the
same-id diagram node's entry with 1000 — the default 1000 applies exactly
when the configured entry is absent (`undefined`/`null`); any other value,
numeric or not, passes through unchanged; `executeWhileLoop` applies the
same nullish-coalescing to this payload when choosing its cap. -/
theorem claim_C2 {rfNodes : List RFNode} {rfEdges : List RFEdge} {g : Graph}
    (h : convertToEngineGraph rfNodes rfEdges = some g) :
    ∀ n, NodeIn n g → n.ntype = .WhileLoop →
      ∃ rf ∈ rfNodes, rf.id = n.id ∧
        jsGet n.data "maxIterations" =
          jsNullish (jsGet rf.data "maxIterations") (Value.num 1000) :=
  fun n hin htype => convertToEngineGraph_maxIter h n hin htype

/-- C2 witness: the numeric-cap loop diagram instantiated at the produced
engine WhileLoop node. -/
theorem claim_C2_witness :
    ∃ rf ∈ [rfLoop3], rf.id = c2wNode.id ∧
      jsGet c2wNode.data "maxIterations" =
        jsNullish (jsGet rf.data "maxIterations") (Value.num 1000) :=
  @claim_C2 [rfLoop3] [] c2wGraph rfl c2wNode
    (NodeIn.here (List.mem_cons_self _ _)) rfl
